import Mathlib

/-!
Verification of the artifact retrieval pipeline of the MarathonLabs CLI
(`src/allure/rawAllure.go`), shallowly embedded in Lean 4.

Modelling conventions.
* Strings are Lean `String`s.  The Go standard-library string helpers the
  source relies on (`strings.Split` on `"/"`, `strings.Join`,
  `strings.ReplaceAll(s, "#", "%23")`, `filepath.Base`) are implemented
  here character by character, so every definition evaluates inside the
  kernel.
* The HTTP transport (`request.SendGetRequest`, a collaborator living
  outside `src/`) is abstracted as oracles: a listing either yields a nil
  response, an unreadable/unmarshalable body, or a decoded node list; a
  content request either yields a body or a nil response.
* Local file systems are finite association lists from segment paths to
  file contents; `path.Join`/`filepath.Rel` are modelled at the segment
  level for already-clean paths (no `.`/`..`/empty segments), which is the
  only shape the pipeline produces.
* The goroutine/semaphore machinery of `GetArtifacts` is modelled twice:
  as a small labelled transition system for the concurrency claims, and as
  a sequential effect-trace function for the functional claims (download
  destinations are distinct, so the sequentialization is observationally
  faithful).
-/

namespace RawAllure

/-- Split a character list at every occurrence of `sep`.
Mirrors Go `strings.Split` for a one-character separator
(source: `strings.Split(fileID, "/")`, rawAllure.go line 160). -/
def chSplit (sep : Char) : List Char → List (List Char)
  | [] => [[]]
  | c :: cs =>
    match chSplit sep cs with
    | [] => [[c]]
    | s :: rest => if c = sep then [] :: s :: rest else (c :: s) :: rest

/-- `strings.Split(s, "/")` from the source, producing `String` segments. -/
def strSplitSlash (s : String) : List String :=
  (chSplit '/' s.data).map (fun l => ⟨l⟩)

/-- `strings.ReplaceAll(fileID, "#", "%23")` (rawAllure.go line 175),
character by character. -/
def chReplaceHash : List Char → List Char
  | [] => []
  | c :: cs => if c = '#' then '%' :: '2' :: '3' :: chReplaceHash cs else c :: chReplaceHash cs

/-- `strings.ReplaceAll(fileID, "#", "%23")` on `String`s. -/
def urlEncodeHash (s : String) : String := ⟨chReplaceHash s.data⟩

/-- `strings.Join(parts, "/")` (rawAllure.go line 163). -/
def joinSlash : List String → String
  | [] => ""
  | [x] => x
  | x :: y :: xs => x ++ "/" ++ joinSlash (y :: xs)

/-- A plain path element: not empty, not `.`, not `..` — the elements Go
`path.Clean` passes through unchanged. -/
def plainSeg (seg : String) : Bool :=
  !(seg == "") && !(seg == ".") && !(seg == "..")

/-- The element loop of Go `path.Clean` over the `/`-split elements,
processed against a stack of already-output elements (held reversed):
empty and `.` elements are dropped; `..` pops the preceding non-`..`
element, is dropped at the root of a rooted path, and is kept otherwise;
every other element is output. -/
def cleanSegs (rooted : Bool) : List String → List String → List String
  | stack, [] => stack.reverse
  | stack, seg :: rest =>
    if seg = "" ∨ seg = "." then cleanSegs rooted stack rest
    else if seg = ".." then
      match stack with
      | [] => if rooted then cleanSegs rooted [] rest else cleanSegs rooted [".."] rest
      | top :: stk2 =>
        if top = ".." then cleanSegs rooted (".." :: top :: stk2) rest
        else cleanSegs rooted stk2 rest
    else cleanSegs rooted (seg :: stack) rest

/-- Whether a path is rooted (begins with `/`). -/
def isRooted (s : String) : Bool :=
  match s.data with
  | c :: _ => c == '/'
  | [] => false

/-- Go `path.Clean`: empty input gives `.`, otherwise the cleaned
elements are rejoined (with the leading `/` of a rooted path restored)
and an empty result gives `.`. -/
def goPathClean (s : String) : String :=
  if s = "" then "."
  else if (if isRooted s then "/" else "") ++
      joinSlash (cleanSegs (isRooted s) [] (strSplitSlash s)) = "" then "."
  else (if isRooted s then "/" else "") ++
    joinSlash (cleanSegs (isRooted s) [] (strSplitSlash s))

/-- Go `path.Join(a, b)` (rawAllure.go lines 166 and 180): join the
elements from the first non-empty one with `/` and `Clean` the result. -/
def goPathJoin (a b : String) : String :=
  if a = "" then (if b = "" then "" else goPathClean b)
  else goPathClean (a ++ "/" ++ b)

/-- The effect plan of one `downloadFile` call: the directory it creates,
the URL it requests, and the local file it creates and streams into
(rawAllure.go lines 154-194). -/
structure DlPlan where
  fileFolder : String
  filePath : String
  url : String
deriving DecidableEq, Repr

/-- The pure core of `downloadFile` (rawAllure.go lines 154-194): rejects
an empty identifier, otherwise derives the local directory, local file
path and request URL exactly as the source does. -/
def downloadFilePlan (fileID whereToSave : String) : Except String DlPlan :=
  if fileID = "" then .error "empty fileID provided"
  else
    let keyArray := strSplitSlash fileID
    let subFolder := if keyArray.length > 1 then joinSlash keyArray.dropLast else ""
    let fileName := keyArray.getLastD ""
    let fileFolder := goPathJoin whereToSave subFolder
    let validFileID := urlEncodeHash fileID
    .ok { fileFolder := fileFolder
          filePath := goPathJoin fileFolder fileName
          url := "https://app.testwise.pro/api/v1/artifact?key=" ++ validFileID }

/-- The local path the spec prescribes for a file identifier: the
identifier's `/`-segments nested under the destination root, with no
percent-encoding applied.  (Stated from the spec's words, to be compared
with what `downloadFilePlan` computes.) -/
def specLocalPath (fileID whereToSave : String) : String :=
  joinSlash (whereToSave :: strSplitSlash fileID)

theorem str_eq_empty_iff (s : String) : s = "" ↔ s.data = [] := by
  cases s; simp [String.ext_iff]

theorem append_ne_empty_left (a b : String) (ha : a ≠ "") : a ++ b ≠ "" := by
  intro h
  apply ha
  rw [str_eq_empty_iff] at h ⊢
  rw [String.data_append] at h
  exact (List.append_eq_nil.mp h).1

theorem chSplit_ne_nil (sep : Char) (l : List Char) : chSplit sep l ≠ [] := by
  induction l with
  | nil => simp [chSplit]
  | cons c cs ih =>
    simp only [chSplit]
    cases h : chSplit sep cs with
    | nil => simp
    | cons s rest =>
      by_cases hc : c = sep <;> simp [hc]

theorem strSplitSlash_ne_nil (s : String) : strSplitSlash s ≠ [] := by
  simp [strSplitSlash, chSplit_ne_nil]

theorem dropLast_append_getLastD {α : Type} : ∀ (l : List α) (d : α), l ≠ [] →
    l.dropLast ++ [l.getLastD d] = l
  | [_], _, _ => rfl
  | x :: y :: ys, d, _ => by
    have h2 := dropLast_append_getLastD (y :: ys) x (by simp)
    simp only [List.dropLast_cons₂, List.getLastD_cons, List.cons_append] at h2 ⊢
    rw [h2]

theorem getLastD_mem {α : Type} : ∀ (l : List α) (d : α), l ≠ [] → l.getLastD d ∈ l
  | [_], _, _ => by simp
  | x :: y :: ys, d, _ => by
    have h2 := getLastD_mem (y :: ys) x (by simp)
    simp only [List.getLastD_cons] at h2 ⊢
    exact List.mem_cons_of_mem x h2

theorem joinSlash_cons_cons (a b : String) (l : List String) :
    joinSlash (a :: b :: l) = a ++ "/" ++ joinSlash (b :: l) := rfl

theorem joinSlash_append_last : ∀ (xs : List String) (x : String), xs ≠ [] →
    joinSlash (xs ++ [x]) = joinSlash xs ++ "/" ++ x
  | [_], _, _ => rfl
  | y :: z :: zs, x, _ => by
    have h2 := joinSlash_append_last (z :: zs) x (by simp)
    simp only [List.cons_append] at h2 ⊢
    simp only [joinSlash_cons_cons]
    rw [h2]
    simp [String.append_assoc]

theorem joinSlash_cons_ne_empty (x : String) (xs : List String) (hx : x ≠ "") :
    joinSlash (x :: xs) ≠ "" := by
  cases xs with
  | nil => exact hx
  | cons y ys =>
    show x ++ "/" ++ joinSlash (y :: ys) ≠ ""
    exact append_ne_empty_left _ _ (append_ne_empty_left _ _ hx)

/-! ## Root Discovery (`getFolder`, rawAllure.go lines 64-117) -/

/-- A decoded artifact listing entry (`ArtifactTree`, rawAllure.go
lines 18-22). -/
structure ArtifactTree where
  id : String
  isFile : Bool
  name : String
deriving DecidableEq, Repr

/-- The fixed checklist keys of `expectedFolders` (rawAllure.go
lines 65-73). -/
def expectedFolders : List String :=
  ["bill", "devices", "html", "logs", "report", "test_result", "tests"]

/-- Observable events of one `getFolder` call: the fixed sleep
(`time.Sleep(5 * time.Second)`, line 78) and the listing request of
attempt `i` (line 80). -/
inductive GEvent where
  | sleep : GEvent
  | attempt (i : Nat) : GEvent
deriving DecidableEq, Repr

/-- The checklist update of lines 92-96: every listed name that is an
expected category is marked as seen.  The map `name → bool` of the source
is represented by the list of expected names seen so far. -/
def updateFound (found : List String) (folders : List ArtifactTree) : List String :=
  found ++ (folders.map (fun f => f.name)).filter (fun n => expectedFolders.contains n)

/-- The `allFound` check of lines 99-105. -/
def allFound (found : List String) : Bool :=
  expectedFolders.all (fun n => found.contains n)

/-- One `getFolder` call, lines 77-116.  `attempts i` is the outcome of
the listing request of attempt `i` through the HTTP collaborator: `none`
for a nil response/body (lines 81-83), otherwise the decoded node list
(an unreadable or unmarshalable body decodes to `[]`, since both read and
unmarshal errors are ignored on lines 85-89).  `fuel` counts the
remaining attempts of the 5-attempt budget; the second component is the
event trace. -/
def getFolderGo (attempts : Nat → Option (List ArtifactTree)) :
    Nat → Nat → List String → List ArtifactTree → List ArtifactTree × List GEvent
  | 0, _, _, last => (last, [])
  | fuel + 1, i, found, last =>
    match attempts i with
    | none =>
      let r := getFolderGo attempts fuel (i + 1) found last
      (r.1, GEvent.sleep :: GEvent.attempt i :: r.2)
    | some folders =>
      let found2 := updateFound found folders
      if allFound found2 then (folders, [GEvent.sleep, GEvent.attempt i])
      else
        let r := getFolderGo attempts fuel (i + 1) found2 folders
        (r.1, GEvent.sleep :: GEvent.attempt i :: r.2)

/-- `getFolder` (lines 64-117): 5 attempts, empty checklist, empty last
listing. -/
def getFolder (attempts : Nat → Option (List ArtifactTree)) :
    List ArtifactTree × List GEvent :=
  getFolderGo attempts 5 0 [] []

/-- The category names contributed by attempt `j` (a failed attempt
contributes zero nodes). -/
def namesAt (attempts : Nat → Option (List ArtifactTree)) (j : Nat) : List String :=
  ((attempts j).getD []).map (fun f => f.name)

/-- All category names observed during attempts `0 .. i-1`. -/
def observedUpTo (attempts : Nat → Option (List ArtifactTree)) (i : Nat) : List String :=
  ((List.range i).map (namesAt attempts)).flatten

/-- Whether every expected category has been observed at least once
within the first `i` attempts. -/
def covered (attempts : Nat → Option (List ArtifactTree)) (i : Nat) : Bool :=
  expectedFolders.all (fun n => (observedUpTo attempts i).contains n)

/-- The last listing obtained within the first `n` attempts (`[]` when
every attempt failed at transport level). -/
def lastObtained (attempts : Nat → Option (List ArtifactTree)) (n : Nat) : List ArtifactTree :=
  (List.range n).foldl
    (fun acc j =>
      match attempts j with
      | some fs => fs
      | none => acc) []

/-- The result Root Discovery should return, stated from the spec's
words: the listing of the first attempt at which every expected category
has been observed, and otherwise the last listing obtained within the
5-attempt budget. -/
def getFolderSpec (attempts : Nat → Option (List ArtifactTree)) : List ArtifactTree :=
  match (List.range 5).find? (fun i => covered attempts (i + 1)) with
  | some i => (attempts i).getD []
  | none => lastObtained attempts 5

theorem contains_iff_mem {α : Type} [BEq α] [LawfulBEq α] (l : List α) (a : α) :
    l.contains a = true ↔ a ∈ l := by
  induction l with
  | nil => simp
  | cons x xs ih =>
    simp only [List.contains_cons, Bool.or_eq_true, beq_iff_eq, List.mem_cons, ih]

theorem contains_eq_false_iff {α : Type} [BEq α] [LawfulBEq α] (l : List α) (a : α) :
    l.contains a = false ↔ a ∉ l := by
  rw [← contains_iff_mem]
  constructor
  · intro h hc
    rw [h] at hc
    exact Bool.false_ne_true hc
  · intro h
    cases hb : l.contains a with
    | false => rfl
    | true => exact absurd hb h

theorem allFound_iff (f : List String) :
    allFound f = true ↔ ∀ n ∈ expectedFolders, n ∈ f := by
  simp [allFound, List.all_eq_true, contains_iff_mem]

theorem covered_iff (attempts : Nat → Option (List ArtifactTree)) (i : Nat) :
    covered attempts i = true ↔ ∀ n ∈ expectedFolders, n ∈ observedUpTo attempts i := by
  simp [covered, List.all_eq_true, contains_iff_mem]

theorem observedUpTo_succ (attempts : Nat → Option (List ArtifactTree)) (i : Nat) :
    observedUpTo attempts (i + 1) = observedUpTo attempts i ++ namesAt attempts i := by
  unfold observedUpTo
  rw [List.range_succ, List.map_append, List.flatten_append]
  simp

theorem lastObtained_succ (attempts : Nat → Option (List ArtifactTree)) (i : Nat) :
    lastObtained attempts (i + 1) =
      match attempts i with
      | some fs => fs
      | none => lastObtained attempts i := by
  simp only [lastObtained, List.range_succ, List.foldl_append, List.foldl_cons, List.foldl_nil]

theorem getFolderGo_result (attempts : Nat → Option (List ArtifactTree)) :
    ∀ (fuel i : Nat) (found : List String) (last : List ArtifactTree),
    (∀ n ∈ expectedFolders, n ∈ found ↔ n ∈ observedUpTo attempts i) →
    last = lastObtained attempts i →
    covered attempts i = false →
    (getFolderGo attempts fuel i found last).1 =
      (match (List.range' i fuel).find? (fun j => covered attempts (j + 1)) with
       | some j => (attempts j).getD []
       | none => lastObtained attempts (i + fuel)) := by
  intro fuel
  induction fuel with
  | zero =>
    intro i found last _ hlast _
    simp [getFolderGo, hlast]
  | succ fuel ih =>
    intro i found last hfound hlast hcov
    rw [List.range'_succ]
    cases hA : attempts i with
    | none =>
      have hnames : namesAt attempts i = [] := by simp [namesAt, hA]
      have hobs : observedUpTo attempts (i + 1) = observedUpTo attempts i := by
        rw [observedUpTo_succ, hnames, List.append_nil]
      have hcov1 : covered attempts (i + 1) = false := by
        rw [show covered attempts (i + 1) = covered attempts i by
          simp [covered, hobs]]
        exact hcov
      rw [List.find?_cons_of_neg _ (by simp [hcov1])]
      have hlast1 : last = lastObtained attempts (i + 1) := by
        rw [lastObtained_succ, hA, hlast]
      have := ih (i + 1) found last (fun n hn => by rw [hfound n hn, ← hobs]) hlast1 hcov1
      simp only [getFolderGo, hA]
      rw [this]
      have harith : i + (fuel + 1) = i + 1 + fuel := by omega
      rw [harith]
    | some folders =>
      have hnames : namesAt attempts i = folders.map (fun f => f.name) := by
        simp [namesAt, hA]
      have hmem2 : ∀ n ∈ expectedFolders,
          (n ∈ updateFound found folders ↔ n ∈ observedUpTo attempts (i + 1)) := by
        intro n hn
        rw [observedUpTo_succ, hnames]
        constructor
        · intro hin
          rcases List.mem_append.mp hin with h | h
          · exact List.mem_append_left _ ((hfound n hn).mp h)
          · exact List.mem_append_right _ (List.mem_filter.mp h).1
        · intro hin
          rcases List.mem_append.mp hin with h | h
          · exact List.mem_append_left _ ((hfound n hn).mpr h)
          · exact List.mem_append_right _
              (List.mem_filter.mpr ⟨h, (contains_iff_mem _ _).mpr hn⟩)
      by_cases hAF : allFound (updateFound found folders) = true
      · have hcov1 : covered attempts (i + 1) = true := by
          rw [covered_iff]
          intro n hn
          exact (hmem2 n hn).mp ((allFound_iff _).mp hAF n hn)
        rw [List.find?_cons_of_pos _ (by simpa using hcov1)]
        simp only [getFolderGo, hA, hAF, if_true]
        simp [hA]
      · have hcov1 : covered attempts (i + 1) = false := by
          rw [Bool.eq_false_iff]
          intro hc
          apply hAF
          rw [allFound_iff]
          intro n hn
          exact (hmem2 n hn).mpr ((covered_iff _ _).mp hc n hn)
        rw [List.find?_cons_of_neg _ (by simp [hcov1])]
        have hlast1 : folders = lastObtained attempts (i + 1) := by
          rw [lastObtained_succ, hA]
        have := ih (i + 1) (updateFound found folders) folders hmem2 hlast1 hcov1
        have harith : i + (fuel + 1) = i + 1 + fuel := by omega
        simp only [getFolderGo, hA]
        rw [if_neg hAF, harith]
        exact this

theorem getFolderGo_trace (attempts : Nat → Option (List ArtifactTree)) :
    ∀ (fuel i : Nat) (found : List String) (last : List ArtifactTree),
    ∃ k, k ≤ fuel ∧ (fuel ≠ 0 → 1 ≤ k) ∧
      (getFolderGo attempts fuel i found last).2 =
        ((List.range' i k).map (fun j => [GEvent.sleep, GEvent.attempt j])).flatten := by
  intro fuel
  induction fuel with
  | zero =>
    intro i found last
    exact ⟨0, Nat.le_refl 0, fun h => absurd rfl h, by simp [getFolderGo]⟩
  | succ fuel ih =>
    intro i found last
    cases hA : attempts i with
    | none =>
      obtain ⟨k, hk, _, htr⟩ := ih (i + 1) found last
      refine ⟨k + 1, by omega, fun _ => by omega, ?_⟩
      simp only [getFolderGo, hA, List.range'_succ, List.map_cons, List.flatten_cons]
      rw [htr]
      rfl
    | some folders =>
      by_cases hAF : allFound (updateFound found folders) = true
      · refine ⟨1, by omega, fun _ => by omega, ?_⟩
        simp [getFolderGo, hA, hAF]
      · obtain ⟨k, hk, _, htr⟩ := ih (i + 1) (updateFound found folders) folders
        refine ⟨k + 1, by omega, fun _ => by omega, ?_⟩
        simp only [getFolderGo, hA, hAF, if_false, List.range'_succ, List.map_cons,
          List.flatten_cons]
        rw [htr]
        rfl

/-- C2: Root Discovery makes between 1 and 5 listing attempts, sleeping
before every attempt including the first; it returns the listing of the
first attempt at which every expected category has been observed at least
once (the checklist persisting across attempts), and, if the 5-attempt
budget passes without full coverage, the last listing obtained, a
transport-level failure contributing zero nodes while still consuming an
attempt. -/
theorem getFolder_c2 (attempts : Nat → Option (List ArtifactTree)) :
    (getFolder attempts).1 = getFolderSpec attempts ∧
    ∃ k, 1 ≤ k ∧ k ≤ 5 ∧
      (getFolder attempts).2 =
        ((List.range k).map (fun j => [GEvent.sleep, GEvent.attempt j])).flatten := by
  constructor
  · have h0 : covered attempts 0 = false := rfl
    have := getFolderGo_result attempts 5 0 [] []
      (fun n _ => by simp [observedUpTo]) (by simp [lastObtained]) h0
    rw [getFolder, this, getFolderSpec, ← List.range_eq_range']
  · obtain ⟨k, hk, hone, htr⟩ := getFolderGo_trace attempts 5 0 [] []
    exact ⟨k, hone (by omega), hk, by rw [getFolder, htr, ← List.range_eq_range']⟩

/-! ## Remote artifact trees and the Tree Walker
(`getFoldersRecursively`, rawAllure.go lines 119-152) -/

/-- The remote artifact tree as seen through the listing API, forests
encoded with `fnil`/`fcons`.  A folder node carries the outcome of
listing its identifier: `dirNil` for a nil response (`resp` or
`resp.Body` nil), `dirBad` for a body that cannot be read or unmarshaled,
`dir` for a decoded child forest. -/
inductive RTree where
  | file (id : String) : RTree
  | dirNil (id : String) : RTree
  | dirBad (id : String) : RTree
  | dir (id : String) (children : RTree) : RTree
  | fnil : RTree
  | fcons (hd tl : RTree) : RTree
deriving DecidableEq, Repr

/-- Outcome of walking: the ordered list of download tasks submitted to
the pool, or an unrecovered panic (which kills the hosting process). -/
inductive WalkResult where
  | panicked : WalkResult
  | ok (tasks : List String) : WalkResult
deriving DecidableEq, Repr

/-- `getFoldersRecursively` (lines 119-152) as a task collector.  Listing
a folder with a nil response dereferences `resp.Body` (line 121) and
panics; an unreadable or unmarshalable body is logged and the subtree
abandoned (lines 124-134); each decoded child that is a file submits one
download task (lines 137-147), each folder child recurses (line 149),
left to right. -/
def walkF : RTree → WalkResult
  | .file id => .ok [id]
  | .dirNil _ => .panicked
  | .dirBad _ => .ok []
  | .dir _ cs => walkF cs
  | .fnil => .ok []
  | .fcons c rest =>
    match walkF c with
    | .panicked => .panicked
    | .ok ts =>
      match walkF rest with
      | .panicked => .panicked
      | .ok ts2 => .ok (ts ++ ts2)

/-- The leaves the walker can discover: every file node reachable through
successfully listed folders, in walk order (leaves below a failed listing
are not discovered). -/
def leavesF : RTree → List String
  | .file id => [id]
  | .dirNil _ => []
  | .dirBad _ => []
  | .dir _ cs => leavesF cs
  | .fnil => []
  | .fcons c rest => leavesF c ++ leavesF rest

/-- No folder in the tree answers with a nil response. -/
def noNil : RTree → Bool
  | .file _ => true
  | .dirNil _ => false
  | .dirBad _ => true
  | .dir _ cs => noNil cs
  | .fnil => true
  | .fcons c rest => noNil c && noNil rest

theorem walkF_eq_leaves (t : RTree) (hnn : noNil t = true) :
    walkF t = .ok (leavesF t) := by
  induction t with
  | file id => rfl
  | dirNil id => exact absurd hnn (by simp [noNil])
  | dirBad id => rfl
  | dir id cs ih => exact ih hnn
  | fnil => rfl
  | fcons c rest ih1 ih2 =>
    have h := hnn
    simp only [noNil, Bool.and_eq_true] at h
    simp only [walkF, ih1 h.1, ih2 h.2, leavesF]

/-! ## Local file systems

A file system is a finite association list from segment paths to file
contents (first entry wins on lookup); directories are implicit. -/

/-- A local path, as a list of segments. -/
abbrev Path := List String

/-- A local file system. -/
abbrev Fs := List (Path × String)

/-- Content of the file at `p`, if any. -/
def lookupFs (fs : Fs) (p : Path) : Option String := List.lookup p fs

/-- `os.Create` + `io.Copy`: create/truncate the file at `p` with
content `c`. -/
def writeFile (fs : Fs) (p : Path) (c : String) : Fs := (p, c) :: fs

/-- The local segment path a file identifier materializes at below the
destination root: its `/`-segments run through the `Clean` element loop
(as `path.Join` does, rawAllure.go lines 160-166, 180). -/
def localSegs (fileID : String) : List String :=
  cleanSegs false [] (strSplitSlash fileID)

/-- Observable events of one `GetArtifacts` call. -/
inductive PEvent where
  | logRootFail : PEvent
  | download (id : String) : PEvent
  | relocate : PEvent
  | repairJson : PEvent
deriving DecidableEq, Repr

/-- The download pool executing the submitted tasks, sequentialized (task
destinations are distinct paths, so interleaving does not change the
resulting file system).  Each task is one `downloadFile` call (lines
154-194): an empty identifier is a reported failure with no filesystem
effect; a nil content response panics at the `resp.Body` dereference of
line 177 (`none` outcome); otherwise the body is streamed to the mirrored
local path.  Every finished task contributes one `download` event,
success or reported failure. -/
def runDownloads (ws : Path) (content : String → Option String) :
    List String → Fs → Option (Fs × List PEvent)
  | [], fs => some (fs, [])
  | id :: rest, fs =>
    if id = "" then
      match runDownloads ws content rest fs with
      | none => none
      | some r => some (r.1, .download id :: r.2)
    else
      match content id with
      | none => none
      | some c =>
        match runDownloads ws content rest (writeFile fs (ws ++ localSegs id) c) with
        | none => none
        | some r => some (r.1, .download id :: r.2)

theorem runDownloads_total (ws : Path) (content : String → Option String) :
    ∀ (tasks : List String) (fs : Fs),
    (∀ id ∈ tasks, (content id).isSome = true) →
    ∃ fs2, runDownloads ws content tasks fs = some (fs2, tasks.map PEvent.download) := by
  intro tasks
  induction tasks with
  | nil => exact fun fs _ => ⟨fs, rfl⟩
  | cons id rest ih =>
    intro fs hc
    have hrest := fun fs2 => ih fs2 (fun i hi => hc i (List.mem_cons_of_mem _ hi))
    by_cases hid : id = ""
    · obtain ⟨fs2, h2⟩ := hrest fs
      exact ⟨fs2, by simp only [runDownloads, hid, if_true, h2, List.map_cons]⟩
    · obtain ⟨c, hcid⟩ := Option.isSome_iff_exists.mp (hc id (List.mem_cons_self _ _))
      obtain ⟨fs2, h2⟩ := hrest (writeFile fs (ws ++ localSegs id) c)
      refine ⟨fs2, ?_⟩
      simp only [runDownloads, hid, if_false, hcid, h2, List.map_cons]

/-- C3: over any artifact tree whose listings answer (successfully or
with a malformed body), the walker submits exactly one download task per
discovered file node, in walk order — no duplicates, no omissions,
regardless of nesting — and the pool then attempts exactly those
downloads: for `N` discovered leaves it produces exactly `N` download
events, one per leaf. -/
theorem walk_c3 (t : RTree) (content : String → Option String)
    (hnn : noNil t = true)
    (hc : ∀ id ∈ leavesF t, (content id).isSome = true) :
    walkF t = .ok (leavesF t) ∧
    ∀ (ws : Path) (fs : Fs), ∃ fs2,
      runDownloads ws content (leavesF t) fs = some (fs2, (leavesF t).map PEvent.download) ∧
      ((leavesF t).map PEvent.download).length = (leavesF t).length := by
  refine ⟨walkF_eq_leaves t hnn, fun ws fs => ?_⟩
  obtain ⟨fs2, h2⟩ := runDownloads_total ws content (leavesF t) fs hc
  exact ⟨fs2, h2, by rw [List.length_map]⟩

/-- C3 witness: a three-level tree with three leaves yields exactly those
three download attempts. -/
theorem walk_c3_witness :
    (walkF (.fcons (.file "r/a.txt")
      (.fcons (.dir "r/d"
        (.fcons (.file "r/d/b.txt") (.fcons (.dirBad "r/d/e") (.fcons (.dir "r/d/f" (.fcons (.file "r/d/f/c.txt") .fnil)) .fnil))))
        .fnil)) = .ok ["r/a.txt", "r/d/b.txt", "r/d/f/c.txt"]) ∧
    ∃ fs2, runDownloads ["R"] (fun _ => some "data")
        ["r/a.txt", "r/d/b.txt", "r/d/f/c.txt"] [] =
        some (fs2, [PEvent.download "r/a.txt", PEvent.download "r/d/b.txt",
          PEvent.download "r/d/f/c.txt"]) := by
  have h := walk_c3 (.fcons (.file "r/a.txt")
      (.fcons (.dir "r/d"
        (.fcons (.file "r/d/b.txt") (.fcons (.dirBad "r/d/e") (.fcons (.dir "r/d/f" (.fcons (.file "r/d/f/c.txt") .fnil)) .fnil))))
        .fnil)) (fun _ => some "data") (by rfl) (fun id _ => rfl)
  obtain ⟨h1, h2⟩ := h
  obtain ⟨fs2, h3, _⟩ := h2 ["R"] []
  exact ⟨h1, fs2, h3⟩

/-! ## Layout Reconciler (`relocateContents`, rawAllure.go lines 196-211) -/

/-- `os.Stat` existence check for a directory: some file lives at or
below `d` (directories are implicit in the model). -/
def dirExists (fs : Fs) (d : Path) : Bool :=
  fs.any (fun e => d.isPrefixOf e.1)

/-- The files `copy.Copy(src, dst)` creates: every file at `src ++ rest`
reappears at `dst ++ rest`. -/
def copyEntries (src dst : Path) : Fs → Fs
  | [] => []
  | e :: rest =>
    if src.isPrefixOf e.1 then (dst ++ e.1.drop src.length, e.2) :: copyEntries src dst rest
    else copyEntries src dst rest

/-- `copy.Copy(src, dst)`: every file at `src ++ rest` is copied to
`dst ++ rest`, overwriting any colliding destination file (the copies are
prepended, so they win lookups). -/
def copyTree (fs : Fs) (src dst : Path) : Fs :=
  copyEntries src dst fs ++ fs

/-- `os.RemoveAll(d)`: delete everything at or below `d`. -/
def removeAll (fs : Fs) (d : Path) : Fs :=
  fs.filter (fun e => !(d.isPrefixOf e.1))

/-- `relocateContents` (lines 196-211): if `<root>/<runId>` does not
exist the step is a logged no-op; otherwise its contents are copied over
the root (overwriting collisions) and only then is the run-scoped
subdirectory removed. -/
def relocateContents (fs : Fs) (whereToSave : Path) (runId : String) : Fs :=
  let runIdDir := whereToSave ++ [runId]
  if dirExists fs runIdDir then removeAll (copyTree fs runIdDir whereToSave) runIdDir
  else fs

theorem isPrefixOf_append_self (a b : Path) : a.isPrefixOf (a ++ b) = true := by
  induction a with
  | nil => simp [List.isPrefixOf]
  | cons x xs ih => simp [List.isPrefixOf, ih]

theorem eq_append_drop_of_isPrefixOf :
    ∀ (a p : Path), a.isPrefixOf p = true → a ++ p.drop a.length = p
  | [], p, _ => rfl
  | x :: xs, [], h => by simp [List.isPrefixOf] at h
  | x :: xs, y :: ys, h => by
    simp only [List.isPrefixOf, Bool.and_eq_true, beq_iff_eq] at h
    simp only [List.length_cons, List.drop_succ_cons, List.cons_append, h.1]
    rw [eq_append_drop_of_isPrefixOf xs ys h.2]

theorem lookupFs_cons (k : Path) (v : String) (fs : Fs) (p : Path) :
    lookupFs ((k, v) :: fs) p = if k = p then some v else lookupFs fs p := by
  by_cases h : k = p
  · subst h
    simp [lookupFs, List.lookup]
  · have hb : (p == k) = false := by
      rw [beq_eq_false_iff_ne]
      exact fun hh => h hh.symm
    simp [lookupFs, List.lookup, hb, h]

theorem lookupFs_append (l1 l2 : Fs) (p : Path) :
    lookupFs (l1 ++ l2) p = (lookupFs l1 p).or (lookupFs l2 p) := by
  induction l1 with
  | nil => simp [lookupFs, List.lookup]
  | cons e rest ih =>
    rw [List.cons_append, show e = (e.1, e.2) from rfl, lookupFs_cons, lookupFs_cons]
    by_cases h : e.1 = p
    · simp [h]
    · simp [h, ih]

theorem lookupFs_removeAll (d p : Path) :
    ∀ (fs : Fs), lookupFs (removeAll fs d) p =
      if d.isPrefixOf p = true then none else lookupFs fs p
  | [] => by
    by_cases h : d.isPrefixOf p = true <;> simp [removeAll, lookupFs, List.lookup, h]
  | (k, v) :: tail => by
    have ih := lookupFs_removeAll d p tail
    by_cases hk : d.isPrefixOf k = true
    · have hstep : removeAll ((k, v) :: tail) d = removeAll tail d := by
        simp [removeAll, List.filter_cons, hk]
      rw [hstep, ih]
      by_cases hp : d.isPrefixOf p = true
      · rw [if_pos hp, if_pos hp]
      · have hkp : k ≠ p := by
          intro h
          subst h
          exact hp hk
        rw [if_neg hp, if_neg hp, lookupFs_cons, if_neg hkp]
    · have hstep : removeAll ((k, v) :: tail) d = (k, v) :: removeAll tail d := by
        simp [removeAll, List.filter_cons, hk]
      rw [hstep, lookupFs_cons]
      by_cases hkp : k = p
      · subst hkp
        rw [if_pos rfl, if_neg (by simpa using hk), lookupFs_cons, if_pos rfl]
      · rw [if_neg hkp, ih]
        by_cases hp : d.isPrefixOf p = true
        · rw [if_pos hp, if_pos hp]
        · rw [if_neg hp, if_neg hp, lookupFs_cons, if_neg hkp]

theorem copyEntries_cons_pos (src dst : Path) (k : Path) (v : String) (rest : Fs)
    (h : src.isPrefixOf k = true) :
    copyEntries src dst ((k, v) :: rest) =
      (dst ++ k.drop src.length, v) :: copyEntries src dst rest := by
  simp [copyEntries, h]

theorem copyEntries_cons_neg (src dst : Path) (k : Path) (v : String) (rest : Fs)
    (h : ¬ src.isPrefixOf k = true) :
    copyEntries src dst ((k, v) :: rest) = copyEntries src dst rest := by
  simp [copyEntries, h]

theorem lookupFs_copied (src dst rest : Path) :
    ∀ (fs : Fs),
    lookupFs (copyEntries src dst fs) (dst ++ rest) = lookupFs fs (src ++ rest)
  | [] => rfl
  | (k, v) :: tail => by
    have ih := lookupFs_copied src dst rest tail
    by_cases hpre : src.isPrefixOf k = true
    · have hsplit : src ++ k.drop src.length = k :=
        eq_append_drop_of_isPrefixOf src k hpre
      rw [copyEntries_cons_pos src dst k v tail hpre, lookupFs_cons, lookupFs_cons]
      by_cases heq : k = src ++ rest
      · have hdrop : k.drop src.length = rest := by
          refine @List.append_cancel_left _ src _ _ ?_
          rw [hsplit, heq]
        rw [if_pos (by rw [hdrop]), if_pos heq]
      · have hne : ¬ (dst ++ k.drop src.length = dst ++ rest) := by
          intro h
          apply heq
          rw [← hsplit]
          congr 1
          exact List.append_cancel_left h
        rw [if_neg hne, if_neg heq, ih]
    · have hne : k ≠ src ++ rest := by
        intro h
        rw [h] at hpre
        exact hpre (isPrefixOf_append_self src rest)
      rw [copyEntries_cons_neg src dst k v tail hpre, lookupFs_cons, if_neg hne, ih]

theorem lookupFs_copied_none (src dst q : Path) (h : ¬ dst.isPrefixOf q = true) :
    ∀ (fs : Fs), lookupFs (copyEntries src dst fs) q = none
  | [] => rfl
  | (k, v) :: tail => by
    have ih := lookupFs_copied_none src dst q h tail
    by_cases hpre : src.isPrefixOf k = true
    · have hne : dst ++ k.drop src.length ≠ q := by
        intro heq
        apply h
        rw [← heq]
        exact isPrefixOf_append_self dst _
      rw [copyEntries_cons_pos src dst k v tail hpre, lookupFs_cons, if_neg hne, ih]
    · rw [copyEntries_cons_neg src dst k v tail hpre, ih]

/-- C6: Layout Reconciliation merges `<root>/<runId>/rest` into
`<root>/rest` by a copy that overwrites colliding destination paths,
removes nothing but the run-scoped subdirectory (which is deleted only
after the copy, so the copied-out files survive), and is a no-op when the
run-scoped subdirectory does not exist. -/
theorem relocate_c6 (fs : Fs) (root : Path) (runId : String) :
    (dirExists fs (root ++ [runId]) = false → relocateContents fs root runId = fs) ∧
    (dirExists fs (root ++ [runId]) = true →
      (∀ q, (root ++ [runId]).isPrefixOf q = true →
        lookupFs (relocateContents fs root runId) q = none) ∧
      (∀ rest c, lookupFs fs (root ++ [runId] ++ rest) = some c →
        (root ++ [runId]).isPrefixOf (root ++ rest) = false →
        lookupFs (relocateContents fs root runId) (root ++ rest) = some c) ∧
      (∀ q, (root ++ [runId]).isPrefixOf q = false →
        (root.isPrefixOf q = true →
          lookupFs fs (root ++ [runId] ++ q.drop root.length) = none) →
        lookupFs (relocateContents fs root runId) q = lookupFs fs q)) := by
  constructor
  · intro hd
    rw [relocateContents]
    simp only [hd, Bool.false_eq_true, if_false]
  · intro hd
    have hreloc : relocateContents fs root runId =
        removeAll (copyTree fs (root ++ [runId]) root) (root ++ [runId]) := by
      rw [relocateContents]
      simp only [hd, if_true]
    refine ⟨?_, ?_, ?_⟩
    · intro q hq
      rw [hreloc, lookupFs_removeAll, if_pos hq]
    · intro rest c hc hnp
      rw [hreloc, lookupFs_removeAll, if_neg (by simp [hnp]), copyTree,
        lookupFs_append, lookupFs_copied, hc]
      rfl
    · intro q hnp hframe
      rw [hreloc, lookupFs_removeAll, if_neg (by simp [hnp]), copyTree,
        lookupFs_append]
      by_cases hrq : root.isPrefixOf q = true
      · have hq : root ++ q.drop root.length = q := eq_append_drop_of_isPrefixOf root q hrq
        have := hframe hrq
        conv_lhs => rw [← hq]
        rw [lookupFs_copied, this, hq]
        rfl
      · rw [lookupFs_copied_none _ root q hrq fs]
        rfl

/-- C6 witness: with `R/run123/a.txt` and `R/existing.txt` on disk,
reconciliation produces `R/a.txt`, removes `R/run123`, and leaves
`R/existing.txt` untouched; the no-op case fires when the run directory
is absent. -/
theorem relocate_c6_witness :
    lookupFs (relocateContents [(["R", "run123", "a.txt"], "A"), (["R", "existing.txt"], "E")]
      ["R"] "run123") ["R", "run123", "a.txt"] = none ∧
    lookupFs (relocateContents [(["R", "run123", "a.txt"], "A"), (["R", "existing.txt"], "E")]
      ["R"] "run123") ["R", "a.txt"] = some "A" ∧
    lookupFs (relocateContents [(["R", "run123", "a.txt"], "A"), (["R", "existing.txt"], "E")]
      ["R"] "run123") ["R", "existing.txt"] =
      lookupFs [(["R", "run123", "a.txt"], "A"), (["R", "existing.txt"], "E")]
        ["R", "existing.txt"] ∧
    relocateContents [(["R", "existing.txt"], "E")] ["R"] "run123" = [(["R", "existing.txt"], "E")] := by
  have h := relocate_c6 [(["R", "run123", "a.txt"], "A"), (["R", "existing.txt"], "E")]
    ["R"] "run123"
  have h2 := (h.2 (by decide))
  refine ⟨h2.1 ["R", "run123", "a.txt"] (by decide), ?_, ?_, ?_⟩
  · exact h2.2.1 ["a.txt"] "A" (by decide) (by decide)
  · exact h2.2.2 ["R", "existing.txt"] (by decide) (fun _ => by decide)
  · exact (relocate_c6 [(["R", "existing.txt"], "E")] ["R"] "run123").1 (by decide)

/-! ## Reference Repair (`updateJsonPaths`, rawAllure.go lines 213-290) -/

/-- Loosely-typed JSON values, the shapes `encoding/json` decodes into
(`map[string]interface{}`, `[]interface{}`, strings, ...).  Numeric
precision is irrelevant to every claim, so numbers are carried as
integers. -/
inductive JVal where
  | null : JVal
  | bool (b : Bool) : JVal
  | num (n : Int) : JVal
  | str (s : String) : JVal
  | arr (xs : List JVal) : JVal
  | obj (fields : List (String × JVal)) : JVal
deriving Repr

/-- Go map assignment `m[k] = v` on the association-list representation:
replace the value at `k` in place, append if absent. -/
def setField : List (String × JVal) → String → JVal → List (String × JVal)
  | [], k, v => [(k, v)]
  | (k2, v2) :: rest, k, v =>
    if k2 = k then (k, v) :: rest else (k2, v2) :: setField rest k v

/-- Strip trailing `/` characters (first step of Go `filepath.Base`). -/
def chDropTrailingSlashes (l : List Char) : List Char :=
  (l.reverse.dropWhile (fun c => c == '/')).reverse

/-- Go `filepath.Base` (rawAllure.go line 263, on slash-separated paths):
`""` gives `"."`, trailing slashes are stripped, an all-slash path gives
`"/"`, otherwise the part after the final slash. -/
def baseNameGo (s : String) : String :=
  if s.data = [] then "."
  else if chDropTrailingSlashes s.data = [] then "/"
  else ⟨(chSplit '/' (chDropTrailingSlashes s.data)).getLastD []⟩

/-- Base name of a segment path (what `filepath.Walk` + `filepath.Base`
record as index key, lines 222-225). -/
def pathBase (p : Path) : String := p.getLastD ""

/-- Length of the longest common segment prefix. -/
def commonPrefixLen : Path → Path → Nat
  | a :: as, b :: bs => if a = b then commonPrefixLen as bs + 1 else 0
  | _, _ => 0

/-- `filepath.Rel(base, target)` (line 266) at segment level for clean
absolute paths: strip the common prefix, one `..` per remaining base
segment, then the target remainder. -/
def relPath (base target : Path) : Path :=
  List.replicate (base.length - commonPrefixLen base target) ".." ++
    target.drop (commonPrefixLen base target)

/-- The per-attachment rewrite of rawAllure.go lines 259-275: an object
element whose `source` field is a string has its base name looked up in
the filename index; on a hit the `source` is replaced by the indexed path
expressed relative to the metadata directory; otherwise the element is
left untouched (as are non-object elements and non-string sources). -/
def updateAttachment (fileMap : List (String × Path)) (dir : Path) : JVal → JVal
  | .obj fields =>
    match List.lookup "source" fields with
    | some (.str s) =>
      match List.lookup (baseNameGo s) fileMap with
      | some newPath =>
        .obj (setField fields "source" (.str (joinSlash (relPath dir newPath))))
      | none => .obj fields
    | _ => .obj fields
  | v => v

/-- The per-document step of rawAllure.go lines 252-287: a document whose
`attachments` field is an array has every element rewritten and the file
re-serialized with indented formatting; any other document is not
rewritten at all (`none`), leaving the file byte-identical. -/
def updateDoc (fileMap : List (String × Path)) (dir : Path)
    (doc : List (String × JVal)) : Option (List (String × JVal)) :=
  match List.lookup "attachments" doc with
  | some (.arr xs) =>
    some (setField doc "attachments" (.arr (xs.map (updateAttachment fileMap dir))))
  | _ => none

/-- C7: a metadata document with an `attachments` array is rewritten with
every element mapped through the attachment rewrite — an element whose
source base name is indexed has its `source` replaced by the indexed path
relative to the metadata directory, an element whose base name is not
indexed (or with no string `source`) is untouched — while a document
without an `attachments` array is not rewritten at all and stays
byte-identical. -/
theorem updateDoc_c7 (idx : List (String × Path)) (dir : Path)
    (doc fields : List (String × JVal)) :
    ((∀ xs, List.lookup "attachments" doc ≠ some (.arr xs)) →
      updateDoc idx dir doc = none) ∧
    (∀ xs, List.lookup "attachments" doc = some (.arr xs) →
      updateDoc idx dir doc =
        some (setField doc "attachments" (.arr (xs.map (updateAttachment idx dir))))) ∧
    (∀ s p, List.lookup "source" fields = some (.str s) →
      List.lookup (baseNameGo s) idx = some p →
      updateAttachment idx dir (.obj fields) =
        .obj (setField fields "source" (.str (joinSlash (relPath dir p))))) ∧
    (∀ s, List.lookup "source" fields = some (.str s) →
      List.lookup (baseNameGo s) idx = none →
      updateAttachment idx dir (.obj fields) = .obj fields) := by
  refine ⟨?_, ?_, ?_, ?_⟩
  · intro hno
    rw [updateDoc]
    rcases hatt : List.lookup "attachments" doc with _ | v
    · rfl
    · cases v with
      | arr xs => exact absurd hatt (hno xs)
      | null => rfl
      | bool b => rfl
      | num n => rfl
      | str s => rfl
      | obj fs => rfl
  · intro xs hatt
    rw [updateDoc, hatt]
  · intro s p hsrc hidx
    rw [updateAttachment, hsrc]
    dsimp only
    rw [hidx]
  · intro s hsrc hidx
    rw [updateAttachment, hsrc]
    dsimp only
    rw [hidx]

/-- C7 witness: a document with one indexed and one unindexed attachment
is rewritten accordingly; a document without `attachments` is untouched. -/
theorem updateDoc_c7_witness :
    updateDoc [("x.png", ["R", "logs", "x.png"])] ["R", "report", "allure-results"]
        [("name", .str "t")] = none ∧
    updateDoc [("x.png", ["R", "logs", "x.png"])] ["R", "report", "allure-results"]
        [("attachments", .arr [.obj [("source", .str "a/b/x.png")],
          .obj [("source", .str "miss.png")]])] =
      some [("attachments", .arr
        [.obj [("source", .str "../../logs/x.png")], .obj [("source", .str "miss.png")]])] ∧
    updateAttachment [("x.png", ["R", "logs", "x.png"])] ["R", "report", "allure-results"]
        (.obj [("source", .str "a/b/x.png")]) =
      .obj [("source", .str (joinSlash (relPath ["R", "report", "allure-results"]
        ["R", "logs", "x.png"])))] ∧
    updateAttachment [("x.png", ["R", "logs", "x.png"])] ["R", "report", "allure-results"]
        (.obj [("source", .str "miss.png")]) = .obj [("source", .str "miss.png")] := by
  have h := updateDoc_c7 [("x.png", ["R", "logs", "x.png"])] ["R", "report", "allure-results"]
    [("name", .str "t")] [("source", .str "a/b/x.png")]
  have h2 := updateDoc_c7 [("x.png", ["R", "logs", "x.png"])] ["R", "report", "allure-results"]
    [("attachments", .arr [.obj [("source", .str "a/b/x.png")],
      .obj [("source", .str "miss.png")]])] [("source", .str "miss.png")]
  refine ⟨h.1 (fun xs hx => by simp [List.lookup] at hx), ?_, ?_, ?_⟩
  · have := h2.2.1 [.obj [("source", .str "a/b/x.png")], .obj [("source", .str "miss.png")]] rfl
    rw [this]
    rfl
  · exact h.2.2.1 "a/b/x.png" ["R", "logs", "x.png"] rfl rfl
  · exact h2.2.2.2 "miss.png" rfl rfl

theorem lookup_mem {β : Type} : ∀ (l : List (String × β)) (k : String) (v : β),
    List.lookup k l = some v → (k, v) ∈ l
  | [], _, _, h => by simp [List.lookup] at h
  | (k2, v2) :: rest, k, v, h => by
    by_cases hk : k = k2
    · subst hk
      have hv : some v2 = some v := by simpa [List.lookup] using h
      cases hv
      exact List.mem_cons_self _ _
    · have hb : (k == k2) = false := beq_eq_false_iff_ne.mpr hk
      have h2 : List.lookup k rest = some v := by simpa [List.lookup, hb] using h
      exact List.mem_cons_of_mem _ (lookup_mem rest k v h2)

theorem lookup_setField_self : ∀ (l : List (String × JVal)) (k : String) (v : JVal),
    List.lookup k (setField l k v) = some v
  | [], k, v => by simp [setField, List.lookup]
  | (k2, v2) :: rest, k, v => by
    by_cases hk : k2 = k
    · subst hk
      simp [setField, List.lookup]
    · have hb : (k == k2) = false := beq_eq_false_iff_ne.mpr (fun hh => hk hh.symm)
      simp [setField, hk, List.lookup, hb, lookup_setField_self rest k v]

theorem setField_idem : ∀ (l : List (String × JVal)) (k : String) (v : JVal),
    setField (setField l k v) k v = setField l k v
  | [], k, v => by simp [setField]
  | (k2, v2) :: rest, k, v => by
    by_cases hk : k2 = k
    · subst hk
      simp [setField]
    · simp [setField, hk, setField_idem rest k v]

theorem commonPrefixLen_le : ∀ (a b : Path), commonPrefixLen a b ≤ b.length
  | [], _ => Nat.zero_le _
  | _ :: _, [] => Nat.zero_le _
  | x :: as, y :: bs => by
    by_cases h : x = y
    · simp only [commonPrefixLen, h, if_true, List.length_cons]
      exact Nat.succ_le_succ (commonPrefixLen_le as bs)
    · simp only [commonPrefixLen, h, if_false]
      exact Nat.zero_le _

theorem isPrefixOf_of_commonPrefixLen_eq : ∀ (a b : Path),
    commonPrefixLen a b = b.length → b.isPrefixOf a = true
  | _, [], _ => by simp [List.isPrefixOf]
  | [], y :: bs, h => by simp [commonPrefixLen] at h
  | x :: as, y :: bs, h => by
    by_cases hxy : x = y
    · have hunf : commonPrefixLen (x :: as) (y :: bs) = commonPrefixLen as bs + 1 := by
        rw [show commonPrefixLen (x :: as) (y :: bs) =
          if x = y then commonPrefixLen as bs + 1 else 0 from rfl, if_pos hxy]
      rw [hunf, List.length_cons] at h
      have h2 : commonPrefixLen as bs = bs.length := by omega
      show ((y == x) && bs.isPrefixOf as) = true
      rw [isPrefixOf_of_commonPrefixLen_eq as bs h2]
      simp [hxy.symm]
    · rw [show commonPrefixLen (x :: as) (y :: bs) = if x = y then commonPrefixLen as bs + 1
        else 0 from rfl, if_neg hxy] at h
      simp at h

theorem getLastD_default_irrel {α : Type} (l : List α) (h : l ≠ []) (d1 d2 : α) :
    l.getLastD d1 = l.getLastD d2 := by
  cases l with
  | nil => exact absurd rfl h
  | cons x xs => rw [List.getLastD_cons, List.getLastD_cons]

theorem getLastD_append_right {α : Type} (l1 : List α) :
    ∀ (l2 : List α) (d : α), l2 ≠ [] → (l1 ++ l2).getLastD d = l2.getLastD d := by
  induction l1 with
  | nil => intro l2 d _; rfl
  | cons x xs ih =>
    intro l2 d h2
    rw [List.cons_append, List.getLastD_cons, ih l2 x h2]
    exact getLastD_default_irrel l2 h2 x d

theorem getLastD_drop {α : Type} : ∀ (n : Nat) (l : List α) (d : α), l.drop n ≠ [] →
    (l.drop n).getLastD d = l.getLastD d
  | 0, _, _, _ => rfl
  | _ + 1, [], _, h => absurd rfl h
  | n + 1, x :: xs, d, h => by
    rw [List.drop_succ_cons] at h ⊢
    have hxs : xs ≠ [] := by
      intro hh
      rw [hh, List.drop_nil] at h
      exact h rfl
    rw [getLastD_drop n xs d h, List.getLastD_cons]
    exact getLastD_default_irrel xs hxs d x

theorem getLastD_map {α β : Type} (f : α → β) : ∀ (l : List α) (d : α), l ≠ [] →
    (l.map f).getLastD (f d) = f (l.getLastD d)
  | [_], _, _ => rfl
  | x :: y :: ys, d, _ => by
    have h2 := getLastD_map f (y :: ys) x (by simp)
    simp only [List.map_cons, List.getLastD_cons] at h2 ⊢
    exact h2

theorem chDropTrailingSlashes_no_trailing (l2 : List Char) (c : Char)
    (hc : (c == '/') = false) :
    chDropTrailingSlashes (l2 ++ [c]) = l2 ++ [c] := by
  unfold chDropTrailingSlashes
  rw [List.reverse_append, List.reverse_singleton, List.singleton_append,
    List.dropWhile_cons]
  simp [hc]

theorem chSplit_no_sep (sep : Char) : ∀ (l : List Char), l.contains sep = false →
    chSplit sep l = [l]
  | [], _ => rfl
  | c :: cs, h => by
    have hmem := (contains_eq_false_iff _ _).mp h
    have hc : ¬ c = sep := fun hh => hmem (hh ▸ List.mem_cons_self _ _)
    have hcs : cs.contains sep = false :=
      (contains_eq_false_iff _ _).mpr (fun hm => hmem (List.mem_cons_of_mem _ hm))
    have ih := chSplit_no_sep sep cs hcs
    simp only [chSplit, ih]
    rw [if_neg hc]

theorem chSplit_append_sep (sep : Char) : ∀ (a b : List Char), a.contains sep = false →
    chSplit sep (a ++ sep :: b) = a :: chSplit sep b
  | [], b, _ => by
    rcases hsb : chSplit sep b with _ | ⟨s, rest⟩
    · exact absurd hsb (chSplit_ne_nil sep b)
    · show (match chSplit sep b with
        | [] => [[sep]]
        | s :: rest => if sep = sep then [] :: s :: rest else (sep :: s) :: rest) =
        [] :: s :: rest
      rw [hsb]
      dsimp only
      rw [if_pos rfl]
  | c :: cs, b, h => by
    have hmem := (contains_eq_false_iff _ _).mp h
    have hc : ¬ c = sep := fun hh => hmem (hh ▸ List.mem_cons_self _ _)
    have hcs : cs.contains sep = false :=
      (contains_eq_false_iff _ _).mpr (fun hm => hmem (List.mem_cons_of_mem _ hm))
    have ih := chSplit_append_sep sep cs b hcs
    show (match chSplit sep (cs ++ sep :: b) with
      | [] => [[c]]
      | s :: rest => if c = sep then [] :: s :: rest else (c :: s) :: rest) =
      (c :: cs) :: chSplit sep b
    rw [ih]
    dsimp only
    rw [if_neg hc]

theorem data_joinSlash_cons (x y : String) (rest : List String) :
    (joinSlash (x :: y :: rest)).data = x.data ++ '/' :: (joinSlash (y :: rest)).data := by
  rw [joinSlash_cons_cons, String.data_append, String.data_append]
  simp

theorem chSplit_joinSlash : ∀ (L : List String),
    (∀ seg ∈ L, seg.data.contains '/' = false) → L ≠ [] →
    chSplit '/' (joinSlash L).data = L.map String.data
  | [], _, hne => absurd rfl hne
  | [x], h, _ => by
    rw [show joinSlash [x] = x from rfl, chSplit_no_sep '/' x.data (h x (by simp))]
    rfl
  | x :: y :: rest, h, _ => by
    have ih := chSplit_joinSlash (y :: rest)
      (fun s hs => h s (List.mem_cons_of_mem _ hs)) (by simp)
    rw [data_joinSlash_cons, chSplit_append_sep '/' _ _ (h x (by simp)), ih]
    rfl

theorem joinSlash_data_ends : ∀ (L : List String),
    (∀ seg ∈ L, seg ≠ "" ∧ seg.data.contains '/' = false) → L ≠ [] →
    ∃ l2 c, (joinSlash L).data = l2 ++ [c] ∧ (c == '/') = false
  | [], _, hne => absurd rfl hne
  | [x], h, _ => by
    obtain ⟨hxne, hxsl⟩ := h x (by simp)
    have hdne : x.data ≠ [] := fun hh => hxne ((str_eq_empty_iff x).mpr hh)
    refine ⟨x.data.dropLast, x.data.getLastD ' ', ?_, ?_⟩
    · exact (dropLast_append_getLastD x.data ' ' hdne).symm
    · have hmem : x.data.getLastD ' ' ∈ x.data := getLastD_mem x.data ' ' hdne
      have := (contains_eq_false_iff _ _).mp hxsl
      exact beq_eq_false_iff_ne.mpr (fun hh => this (hh ▸ hmem))
  | x :: y :: rest, h, _ => by
    obtain ⟨l2, c, hdata, hc⟩ := joinSlash_data_ends (y :: rest)
      (fun s hs => h s (List.mem_cons_of_mem _ hs)) (by simp)
    refine ⟨x.data ++ '/' :: l2, c, ?_, hc⟩
    rw [data_joinSlash_cons, hdata]
    simp

theorem baseNameGo_joinSlash (L : List String) (hne : L ≠ [])
    (hsegs : ∀ seg ∈ L, seg ≠ "" ∧ seg.data.contains '/' = false) :
    baseNameGo (joinSlash L) = L.getLastD "" := by
  obtain ⟨l2, c, hdata, hc⟩ := joinSlash_data_ends L hsegs hne
  have hnn : (joinSlash L).data ≠ [] := by
    rw [hdata]
    simp
  have hdts : chDropTrailingSlashes (joinSlash L).data = (joinSlash L).data := by
    rw [hdata]
    exact chDropTrailingSlashes_no_trailing l2 c hc
  rw [baseNameGo, if_neg hnn, hdts, if_neg hnn,
    chSplit_joinSlash L (fun s hs => (hsegs s hs).2) hne,
    show ([] : List Char) = ("" : String).data from rfl,
    getLastD_map String.data L "" hne]

/-! ### Go `path.Clean`/`path.Join` lemmas (for the File Materializer) -/

theorem strSplitSlash_empty : strSplitSlash "" = [""] := rfl

theorem empty_append (t : String) : "" ++ t = t := by
  cases t
  rfl

theorem chSplit_cons_sep (sep : Char) (cs : List Char) :
    chSplit sep (sep :: cs) = [] :: chSplit sep cs := by
  rcases hsb : chSplit sep cs with _ | ⟨s, rest⟩
  · exact absurd hsb (chSplit_ne_nil sep cs)
  · show (match chSplit sep cs with
      | [] => [[sep]]
      | s :: rest => if sep = sep then [] :: s :: rest else (sep :: s) :: rest) =
      [] :: s :: rest
    rw [hsb]
    dsimp only
    rw [if_pos rfl]

theorem chSplit_cons_ne (sep c : Char) (cs s : List Char) (rest : List (List Char))
    (hc : ¬ c = sep) (hsb : chSplit sep cs = s :: rest) :
    chSplit sep (c :: cs) = (c :: s) :: rest := by
  show (match chSplit sep cs with
    | [] => [[c]]
    | s :: rest => if c = sep then [] :: s :: rest else (c :: s) :: rest) =
    (c :: s) :: rest
  rw [hsb]
  dsimp only
  rw [if_neg hc]

theorem joinSlash_chSplit : ∀ (l : List Char),
    joinSlash ((chSplit '/' l).map (fun l2 => (⟨l2⟩ : String))) = ⟨l⟩
  | [] => rfl
  | c :: cs => by
    have ih := joinSlash_chSplit cs
    rcases hsb : chSplit '/' cs with _ | ⟨s, rest⟩
    · exact absurd hsb (chSplit_ne_nil '/' cs)
    · rw [hsb, List.map_cons] at ih
      by_cases hc : c = '/'
      · subst hc
        rw [chSplit_cons_sep, hsb, List.map_cons, List.map_cons, joinSlash_cons_cons, ih]
        rfl
      · rw [chSplit_cons_ne '/' c cs s rest hc hsb, List.map_cons]
        cases rest with
        | nil =>
          simp only [List.map_nil] at ih ⊢
          have hs : s = cs := congrArg String.data ih
          show (⟨c :: s⟩ : String) = ⟨c :: cs⟩
          rw [hs]
        | cons m ms =>
          rw [List.map_cons, joinSlash_cons_cons] at ih ⊢
          have hdata := congrArg String.data ih
          rw [String.data_append, String.data_append] at hdata
          rw [String.ext_iff, String.data_append, String.data_append]
          show (c :: s) ++ ['/'] ++ _ = c :: cs
          rw [List.cons_append, List.cons_append]
          congr 1

theorem joinSlash_strSplitSlash (s : String) : joinSlash (strSplitSlash s) = s := by
  rw [strSplitSlash, joinSlash_chSplit]

theorem chSplit_append_all (sep : Char) : ∀ (l1 l2 : List Char),
    chSplit sep (l1 ++ sep :: l2) = chSplit sep l1 ++ chSplit sep l2
  | [], l2 => by
    rw [List.nil_append, chSplit_cons_sep]
    rfl
  | c :: cs, l2 => by
    have ih := chSplit_append_all sep cs l2
    rcases hsb : chSplit sep cs with _ | ⟨s, rest⟩
    · exact absurd hsb (chSplit_ne_nil sep cs)
    · by_cases hcp : c = sep
      · subst hcp
        rw [List.cons_append, chSplit_cons_sep, chSplit_cons_sep, ih, hsb]
        rfl
      · have hinner : chSplit sep (cs ++ sep :: l2) = s :: (rest ++ chSplit sep l2) := by
          rw [ih, hsb]
          rfl
        rw [List.cons_append,
          chSplit_cons_ne sep c _ s (rest ++ chSplit sep l2) hcp hinner,
          chSplit_cons_ne sep c cs s rest hcp hsb]
        rfl

theorem strSplitSlash_append (a b : String) :
    strSplitSlash (a ++ "/" ++ b) = strSplitSlash a ++ strSplitSlash b := by
  have hdata : (a ++ "/" ++ b).data = a.data ++ '/' :: b.data := by
    rw [String.data_append, String.data_append]
    simp
  rw [strSplitSlash, hdata, chSplit_append_all, List.map_append]
  rfl

theorem chSplit_chunks_no_sep (sep : Char) : ∀ (l : List Char),
    ∀ chunk ∈ chSplit sep l, chunk.contains sep = false
  | [], chunk, hc => by
    simp only [chSplit, List.mem_singleton] at hc
    subst hc
    rfl
  | c :: cs, chunk, hc => by
    have ih := fun ch hm => chSplit_chunks_no_sep sep cs ch hm
    rcases hsb : chSplit sep cs with _ | ⟨s, rest⟩
    · exact absurd hsb (chSplit_ne_nil sep cs)
    · by_cases hcp : c = sep
      · subst hcp
        rw [chSplit_cons_sep] at hc
        rcases List.mem_cons.mp hc with h | h
        · subst h
          rfl
        · exact ih chunk h
      · rw [chSplit_cons_ne sep c cs s rest hcp hsb] at hc
        rcases List.mem_cons.mp hc with h | h
        · subst h
          have hs : s.contains sep = false := ih s (by rw [hsb]; exact List.mem_cons_self _ _)
          rw [contains_eq_false_iff] at hs ⊢
          intro hmem
          rcases List.mem_cons.mp hmem with h2 | h2
          · exact hcp h2.symm
          · exact hs h2
        · exact ih chunk (by rw [hsb]; exact List.mem_cons_of_mem _ h)

theorem strSplitSlash_chunks_no_slash (s : String) (seg : String)
    (h : seg ∈ strSplitSlash s) : seg.data.contains '/' = false := by
  rw [strSplitSlash] at h
  obtain ⟨chunk, hmem, heq⟩ := List.mem_map.mp h
  subst heq
  exact chSplit_chunks_no_sep '/' s.data chunk hmem

theorem strSplitSlash_no_slash (seg : String) (h : seg.data.contains '/' = false) :
    strSplitSlash seg = [seg] := by
  rw [strSplitSlash, chSplit_no_sep '/' seg.data h]
  rfl

theorem strSplitSlash_joinSlash (L : List String)
    (h : ∀ seg ∈ L, seg.data.contains '/' = false) (hne : L ≠ []) :
    strSplitSlash (joinSlash L) = L := by
  rw [strSplitSlash, chSplit_joinSlash L h hne, List.map_map,
    show ((fun l2 => (⟨l2⟩ : String)) ∘ String.data) = id from funext (fun x => rfl),
    List.map_id]

theorem filter_eq_self_of_all {p : String → Bool} :
    ∀ (l : List String), (∀ a ∈ l, p a = true) → l.filter p = l
  | [], _ => rfl
  | a :: rest, h => by
    rw [List.filter_cons_of_pos (by simp [h a (List.mem_cons_self _ _)]),
      filter_eq_self_of_all rest (fun b hb => h b (List.mem_cons_of_mem _ hb))]

theorem plainSeg_ne_empty {seg : String} (h : plainSeg seg = true) : seg ≠ "" := by
  intro hh
  subst hh
  exact absurd h (by decide)

theorem plainSeg_ne_dotdot {seg : String} (h : plainSeg seg = true) : seg ≠ ".." := by
  intro hh
  subst hh
  exact absurd h (by decide)

theorem cleanSegs_no_dotdot (rooted : Bool) :
    ∀ (segs stack : List String),
    (∀ seg ∈ segs, seg ≠ "..") →
    cleanSegs rooted stack segs = stack.reverse ++ segs.filter plainSeg
  | [], stack, _ => by simp [cleanSegs]
  | seg :: rest, stack, h => by
    have hseg : seg ≠ ".." := h seg (List.mem_cons_self _ _)
    have hrest : ∀ s2 ∈ rest, s2 ≠ ".." := fun s2 hs => h s2 (List.mem_cons_of_mem _ hs)
    by_cases h1 : seg = "" ∨ seg = "."
    · have hstep : cleanSegs rooted stack (seg :: rest) = cleanSegs rooted stack rest := by
        simp only [cleanSegs]
        rw [if_pos h1]
      have hp : plainSeg seg = false := by
        rcases h1 with h1 | h1 <;> rw [h1] <;> rfl
      rw [hstep, cleanSegs_no_dotdot rooted rest stack hrest,
        List.filter_cons_of_neg (by simp [hp])]
    · have hstep : cleanSegs rooted stack (seg :: rest) =
          cleanSegs rooted (seg :: stack) rest := by
        simp only [cleanSegs]
        rw [if_neg h1, if_neg hseg]
      push_neg at h1
      have hp : plainSeg seg = true := by
        simp [plainSeg, h1.1, h1.2, hseg]
      rw [hstep, cleanSegs_no_dotdot rooted rest (seg :: stack) hrest,
        List.filter_cons_of_pos (by simp [hp]), List.reverse_cons, List.append_assoc,
        List.singleton_append]

theorem joinSlash_append_gen : ∀ (l1 l2 : List String), l1 ≠ [] → l2 ≠ [] →
    joinSlash (l1 ++ l2) = joinSlash l1 ++ "/" ++ joinSlash l2
  | [], _, h1, _ => absurd rfl h1
  | [x], l2, _, h2 => by
    rcases l2 with _ | ⟨m, ms⟩
    · exact absurd rfl h2
    · rw [List.singleton_append, joinSlash_cons_cons]
      rfl
  | x :: y :: ys, l2, _, h2 => by
    have ih := joinSlash_append_gen (y :: ys) l2 (by simp) h2
    rw [show (x :: y :: ys) ++ l2 = x :: ((y :: ys) ++ l2) from rfl, List.cons_append,
      joinSlash_cons_cons, show y :: (ys ++ l2) = (y :: ys) ++ l2 from rfl, ih,
      joinSlash_cons_cons]
    simp [String.append_assoc]

theorem mem_empty_of_rooted (s : String) (h : isRooted s = true) : "" ∈ strSplitSlash s := by
  rcases hd : s.data with _ | ⟨c, cs⟩
  · have : isRooted s = false := by rw [isRooted, hd]
    rw [this] at h
    exact absurd h (by decide)
  · have hc : c = '/' := by
      have : isRooted s = (c == '/') := by rw [isRooted, hd]
      rw [this] at h
      exact beq_iff_eq.mp h
    subst hc
    have : strSplitSlash s = "" :: (chSplit '/' cs).map (fun l2 => (⟨l2⟩ : String)) := by
      rw [strSplitSlash, hd, chSplit_cons_sep]
      rfl
    rw [this]
    exact List.mem_cons_self _ _

theorem isRooted_append (a b : String) (ha : a ≠ "") : isRooted (a ++ b) = isRooted a := by
  rcases hd : a.data with _ | ⟨c, cs⟩
  · exact absurd ((str_eq_empty_iff a).mpr hd) ha
  · have h2 : (a ++ b).data = c :: (cs ++ b.data) := by
      rw [String.data_append, hd]
      rfl
    rw [isRooted, isRooted, h2, hd]

theorem isRooted_false_of_no_empty (s : String)
    (h : ∀ seg ∈ strSplitSlash s, seg ≠ "") : isRooted s = false := by
  cases hb : isRooted s with
  | false => rfl
  | true => exact absurd rfl (h "" (mem_empty_of_rooted s hb))

theorem goPathClean_relative (s : String) (hne : s ≠ "")
    (hroot : isRooted s = false)
    (hdot : ∀ seg ∈ strSplitSlash s, seg ≠ "..")
    (f : String) (fs : List String)
    (hfe : (strSplitSlash s).filter plainSeg = f :: fs) :
    goPathClean s = joinSlash (f :: fs) := by
  have hf : plainSeg f = true := by
    have hm : f ∈ (strSplitSlash s).filter plainSeg := by
      rw [hfe]
      exact List.mem_cons_self _ _
    exact (List.mem_filter.mp hm).2
  have hpre : (if isRooted s then "/" else "") = "" := by
    rw [hroot]
    rfl
  have hclean : cleanSegs (isRooted s) [] (strSplitSlash s) = f :: fs := by
    rw [cleanSegs_no_dotdot (isRooted s) (strSplitSlash s) [] hdot, hfe]
    rfl
  have hout : (if isRooted s then "/" else "") ++
      joinSlash (cleanSegs (isRooted s) [] (strSplitSlash s)) = joinSlash (f :: fs) := by
    rw [hpre, hclean, empty_append]
  rw [goPathClean, if_neg hne, hout,
    if_neg (joinSlash_cons_ne_empty f fs (plainSeg_ne_empty hf))]

theorem goPathClean_root_append (root b : String)
    (hroot : ∀ seg ∈ strSplitSlash root, plainSeg seg = true)
    (hb : ∀ seg ∈ strSplitSlash b, seg ≠ "..") :
    goPathClean (root ++ "/" ++ b) =
      joinSlash (strSplitSlash root ++ (strSplitSlash b).filter plainSeg) := by
  have hrootne : root ≠ "" := by
    intro hh
    subst hh
    exact absurd (hroot "" (by rw [strSplitSlash_empty]; exact List.mem_cons_self _ _))
      (by decide)
  have hs : strSplitSlash (root ++ "/" ++ b) = strSplitSlash root ++ strSplitSlash b :=
    strSplitSlash_append root b
  have hne : root ++ "/" ++ b ≠ "" :=
    append_ne_empty_left _ _ (append_ne_empty_left _ _ hrootne)
  have hrooted : isRooted (root ++ "/" ++ b) = false := by
    rw [isRooted_append (root ++ "/") b (append_ne_empty_left _ _ hrootne),
      isRooted_append root "/" hrootne]
    exact isRooted_false_of_no_empty root (fun seg hsg => plainSeg_ne_empty (hroot seg hsg))
  have hdot : ∀ seg ∈ strSplitSlash (root ++ "/" ++ b), seg ≠ ".." := by
    intro seg hsg
    rw [hs] at hsg
    rcases List.mem_append.mp hsg with h | h
    · exact plainSeg_ne_dotdot (hroot seg h)
    · exact hb seg h
  have hfil : (strSplitSlash (root ++ "/" ++ b)).filter plainSeg =
      strSplitSlash root ++ (strSplitSlash b).filter plainSeg := by
    rw [hs, List.filter_append, filter_eq_self_of_all (strSplitSlash root) hroot]
  rcases hfe : strSplitSlash root ++ (strSplitSlash b).filter plainSeg with _ | ⟨f, fs⟩
  · rcases hR : strSplitSlash root with _ | ⟨rf, rfs⟩
    · exact absurd hR (strSplitSlash_ne_nil root)
    · rw [hR] at hfe
      simp at hfe
  · rw [goPathClean_relative (root ++ "/" ++ b) hne hrooted hdot f fs
      (by rw [hfil]; exact hfe)]

/-- C5: the File Materializer (`downloadFile`, rawAllure.go lines 154-194)
sends every non-empty identifier's content to the local path obtained by
splitting the identifier on `/` and nesting the segments under the
destination root -- the last segment the file name, the prior segments
subdirectories -- with the `#`-to-`%23` percent-encoding applied only to
the outgoing request URL and never to the local path; the empty identifier
is rejected with an error.  Stated for identifiers and roots whose
`/`-segments are all plain (non-empty, not `.`, not `..`), the shapes on
which Go `path.Join`'s `Clean` pass leaves the concatenation intact. -/
theorem downloadFile_c5 (fileID root : String)
    (hroot : (strSplitSlash root).all plainSeg = true)
    (hseg : (strSplitSlash fileID).all plainSeg = true) :
    (∃ plan, downloadFilePlan fileID root = .ok plan ∧
       plan.filePath = specLocalPath fileID root ∧
       plan.url = "https://app.testwise.pro/api/v1/artifact?key=" ++ urlEncodeHash fileID) ∧
    downloadFilePlan "" root = .error "empty fileID provided" := by
  have hrootsegs := List.all_eq_true.mp hroot
  have hfsegs := List.all_eq_true.mp hseg
  have hrootne : root ≠ "" := by
    intro hh
    subst hh
    exact absurd (hrootsegs "" (by rw [strSplitSlash_empty]; exact List.mem_cons_self _ _))
      (by decide)
  have hne : fileID ≠ "" := by
    intro hh
    subst hh
    exact absurd (hfsegs "" (by rw [strSplitSlash_empty]; exact List.mem_cons_self _ _))
      (by decide)
  have hRjoin : joinSlash (strSplitSlash root) = root := joinSlash_strSplitSlash root
  have hRne : strSplitSlash root ≠ [] := strSplitSlash_ne_nil root
  constructor
  · refine ⟨_, by rw [downloadFilePlan, if_neg hne], ?_, rfl⟩
    show goPathJoin
        (goPathJoin root
          (if (strSplitSlash fileID).length > 1 then joinSlash (strSplitSlash fileID).dropLast
           else ""))
        ((strSplitSlash fileID).getLastD "") = specLocalPath fileID root
    rw [specLocalPath]
    rcases hp : strSplitSlash fileID with _ | ⟨x, xs⟩
    · exact absurd hp (strSplitSlash_ne_nil fileID)
    · cases xs with
      | nil =>
        have hxmem : x ∈ strSplitSlash fileID := by
          rw [hp]
          exact List.mem_cons_self _ _
        have hxplain : plainSeg x = true := hfsegs x hxmem
        have hxsplit : strSplitSlash x = [x] :=
          strSplitSlash_no_slash x (strSplitSlash_chunks_no_slash fileID x hxmem)
        have hbx : ∀ seg ∈ strSplitSlash x, seg ≠ ".." := by
          intro seg hsg
          rw [hxsplit, List.mem_singleton] at hsg
          subst hsg
          exact plainSeg_ne_dotdot hxplain
        have hfx1 : ∀ a ∈ [x], plainSeg a = true := by
          intro a ha
          rw [List.mem_singleton] at ha
          subst ha
          exact hxplain
        have hFF : goPathJoin root "" = root := by
          rw [goPathJoin, if_neg hrootne,
            goPathClean_root_append root "" hrootsegs
              (by intro seg hsg
                  rw [strSplitSlash_empty, List.mem_singleton] at hsg
                  subst hsg
                  decide),
            show (strSplitSlash "").filter plainSeg = [] from rfl, List.append_nil, hRjoin]
        rw [if_neg (by simp), show ((x :: ([] : List String)).getLastD "") = x from rfl, hFF,
          goPathJoin, if_neg hrootne,
          goPathClean_root_append root x hrootsegs hbx,
          hxsplit, filter_eq_self_of_all _ hfx1,
          joinSlash_append_gen (strSplitSlash root) [x] hRne (by simp),
          hRjoin, joinSlash_cons_cons]
      | cons y ys =>
        have hsub : ∀ seg ∈ x :: y :: ys, seg ∈ strSplitSlash fileID := by
          intro seg hsg
          rw [hp]
          exact hsg
        have hsplit := dropLast_append_getLastD (x :: y :: ys) "" (by simp)
        have hDsub : ∀ seg ∈ (x :: y :: ys).dropLast, seg ∈ x :: y :: ys := by
          intro seg hsg
          rw [← hsplit]
          exact List.mem_append_left _ hsg
        have hDne : (x :: y :: ys).dropLast ≠ [] := by simp
        have hDplain : ∀ seg ∈ (x :: y :: ys).dropLast, plainSeg seg = true :=
          fun seg hs => hfsegs seg (hsub seg (hDsub seg hs))
        have hDslash : ∀ seg ∈ (x :: y :: ys).dropLast, seg.data.contains '/' = false :=
          fun seg hs => strSplitSlash_chunks_no_slash fileID seg (hsub seg (hDsub seg hs))
        have hDsplit : strSplitSlash (joinSlash ((x :: y :: ys).dropLast)) =
            (x :: y :: ys).dropLast :=
          strSplitSlash_joinSlash _ hDslash hDne
        have hlmem : (x :: y :: ys).getLastD "" ∈ x :: y :: ys :=
          getLastD_mem _ "" (by simp)
        have hlplain : plainSeg ((x :: y :: ys).getLastD "") = true :=
          hfsegs _ (hsub _ hlmem)
        have hlsplit : strSplitSlash ((x :: y :: ys).getLastD "") =
            [(x :: y :: ys).getLastD ""] :=
          strSplitSlash_no_slash _ (strSplitSlash_chunks_no_slash fileID _ (hsub _ hlmem))
        have hFF : goPathJoin root (joinSlash ((x :: y :: ys).dropLast)) =
            root ++ "/" ++ joinSlash ((x :: y :: ys).dropLast) := by
          rw [goPathJoin, if_neg hrootne,
            goPathClean_root_append root (joinSlash ((x :: y :: ys).dropLast)) hrootsegs
              (by intro seg hsg
                  rw [hDsplit] at hsg
                  exact plainSeg_ne_dotdot (hDplain seg hsg)),
            hDsplit, filter_eq_self_of_all _ hDplain,
            joinSlash_append_gen (strSplitSlash root) _ hRne hDne, hRjoin]
        have hFFsegs : ∀ seg ∈
            strSplitSlash (root ++ "/" ++ joinSlash ((x :: y :: ys).dropLast)),
            plainSeg seg = true := by
          intro seg hsg
          rw [strSplitSlash_append, hDsplit] at hsg
          rcases List.mem_append.mp hsg with h | h
          · exact hrootsegs seg h
          · exact hDplain seg h
        have hblst : ∀ seg ∈ strSplitSlash ((x :: y :: ys).getLastD ""), seg ≠ ".." := by
          intro seg hsg
          rw [hlsplit, List.mem_singleton] at hsg
          subst hsg
          exact plainSeg_ne_dotdot hlplain
        have hflst : ∀ a ∈ [(x :: y :: ys).getLastD ""], plainSeg a = true := by
          intro a ha
          rw [List.mem_singleton] at ha
          subst ha
          exact hlplain
        rw [if_pos (by simp), hFF, goPathJoin,
          if_neg (append_ne_empty_left _ _ (append_ne_empty_left _ _ hrootne)),
          goPathClean_root_append (root ++ "/" ++ joinSlash ((x :: y :: ys).dropLast))
            ((x :: y :: ys).getLastD "") hFFsegs hblst,
          hlsplit, filter_eq_self_of_all _ hflst,
          strSplitSlash_append root (joinSlash ((x :: y :: ys).dropLast)), hDsplit,
          List.append_assoc, hsplit,
          joinSlash_append_gen (strSplitSlash root) (x :: y :: ys) hRne (by simp),
          hRjoin, joinSlash_cons_cons root x (y :: ys)]
  · rfl

/-- C5 witness: the identifier logs/run#1.txt under root R is planned at
local path R/logs/run#1.txt -- no percent-encoding in the path -- while the
request URL carries the %23 encoding, and the empty identifier errors. -/
theorem downloadFile_c5_witness :
    (∃ plan, downloadFilePlan "logs/run#1.txt" "R" = .ok plan ∧
       plan.filePath = specLocalPath "logs/run#1.txt" "R" ∧
       plan.url = "https://app.testwise.pro/api/v1/artifact?key=" ++
         urlEncodeHash "logs/run#1.txt") ∧
    downloadFilePlan "" "R" = .error "empty fileID provided" :=
  downloadFile_c5 "logs/run#1.txt" "R" (by decide) (by decide)

/-- Well-formedness of a filename index as `updateJsonPaths` builds it
(lines 215-227): every entry maps a base name to a non-empty clean path
whose last segment is that base name, and indexed files do not lie on the
metadata directory path itself. -/
def idxWellFormed (dir : Path) (idx : List (String × Path)) : Bool :=
  idx.all (fun e =>
    !(e.2 == []) && (pathBase e.2 == e.1) && !(e.2.isPrefixOf dir) &&
      e.2.all (fun seg => !(seg == "") && !(seg.data.contains '/')))

theorem idxWellFormed_spec (dir : Path) (idx : List (String × Path))
    (hwf : idxWellFormed dir idx = true) (k : String) (p : Path)
    (hlk : List.lookup k idx = some p) :
    p ≠ [] ∧ pathBase p = k ∧ ¬ p.isPrefixOf dir = true ∧
      ∀ seg ∈ p, seg ≠ "" ∧ seg.data.contains '/' = false := by
  have hmem := lookup_mem idx k p hlk
  have hall := List.all_eq_true.mp hwf (k, p) hmem
  simp only [Bool.and_eq_true, Bool.not_eq_true', beq_iff_eq, List.all_eq_true] at hall
  obtain ⟨⟨⟨hne, hbase⟩, hnp⟩, hsegs⟩ := hall
  refine ⟨?_, hbase, by simp [hnp], ?_⟩
  · intro hh
    rw [hh] at hne
    simp at hne
  · intro seg hseg
    have := hsegs seg hseg
    simp only [Bool.and_eq_true, Bool.not_eq_true', beq_iff_eq] at this
    exact ⟨by simpa using this.1, this.2⟩

theorem relPath_facts (dir p : Path) (hnp : ¬ p.isPrefixOf dir = true)
    (hsegs : ∀ seg ∈ p, seg ≠ "" ∧ seg.data.contains '/' = false) :
    relPath dir p ≠ [] ∧
    (∀ seg ∈ relPath dir p, seg ≠ "" ∧ seg.data.contains '/' = false) ∧
    (relPath dir p).getLastD "" = pathBase p := by
  have hlt : commonPrefixLen dir p < p.length := by
    rcases Nat.lt_or_ge (commonPrefixLen dir p) p.length with h | h
    · exact h
    · have heq : commonPrefixLen dir p = p.length :=
        Nat.le_antisymm (commonPrefixLen_le dir p) h
      exact absurd (isPrefixOf_of_commonPrefixLen_eq dir p heq) hnp
  have hdrop_ne : p.drop (commonPrefixLen dir p) ≠ [] := by
    intro h
    have := List.drop_eq_nil_iff.mp h
    omega
  refine ⟨?_, ?_, ?_⟩
  · intro h
    rw [relPath] at h
    exact hdrop_ne (List.append_eq_nil.mp h).2
  · intro seg hseg
    rw [relPath] at hseg
    rcases List.mem_append.mp hseg with h | h
    · have := List.eq_of_mem_replicate h
      subst this
      exact ⟨by decide, by decide⟩
    · exact hsegs seg (List.mem_of_mem_drop h)
  · rw [relPath, getLastD_append_right _ _ _ hdrop_ne, getLastD_drop _ _ _ hdrop_ne]
    rfl

theorem updateAttachment_idem (idx : List (String × Path)) (dir : Path)
    (hwf : idxWellFormed dir idx = true) (att : JVal) :
    updateAttachment idx dir (updateAttachment idx dir att) =
      updateAttachment idx dir att := by
  cases att with
  | null => rfl
  | bool b => rfl
  | num n => rfl
  | str s => rfl
  | arr xs => rfl
  | obj fields =>
    rcases hsrc : List.lookup "source" fields with _ | v
    · have h1 : updateAttachment idx dir (.obj fields) = .obj fields := by
        rw [updateAttachment, hsrc]
      rw [h1, h1]
    · cases v with
      | str s =>
        rcases hidx : List.lookup (baseNameGo s) idx with _ | p
        · have h1 : updateAttachment idx dir (.obj fields) = .obj fields := by
            rw [updateAttachment, hsrc]
            dsimp only
            rw [hidx]
          rw [h1, h1]
        · obtain ⟨hpne, hpbase, hpnp, hpsegs⟩ := idxWellFormed_spec dir idx hwf _ _ hidx
          obtain ⟨hrne, hrsegs, hrlast⟩ := relPath_facts dir p hpnp hpsegs
          have hbase : baseNameGo (joinSlash (relPath dir p)) = baseNameGo s := by
            rw [baseNameGo_joinSlash _ hrne hrsegs, hrlast, hpbase]
          have h1 : updateAttachment idx dir (.obj fields) =
              .obj (setField fields "source" (.str (joinSlash (relPath dir p)))) := by
            rw [updateAttachment, hsrc]
            dsimp only
            rw [hidx]
          rw [h1, updateAttachment,
            lookup_setField_self fields "source" (.str (joinSlash (relPath dir p)))]
          dsimp only
          rw [hbase, hidx]
          dsimp only
          rw [setField_idem]
      | null =>
        have h1 : updateAttachment idx dir (.obj fields) = .obj fields := by
          rw [updateAttachment, hsrc]
        rw [h1, h1]
      | bool b =>
        have h1 : updateAttachment idx dir (.obj fields) = .obj fields := by
          rw [updateAttachment, hsrc]
        rw [h1, h1]
      | num n =>
        have h1 : updateAttachment idx dir (.obj fields) = .obj fields := by
          rw [updateAttachment, hsrc]
        rw [h1, h1]
      | arr xs =>
        have h1 : updateAttachment idx dir (.obj fields) = .obj fields := by
          rw [updateAttachment, hsrc]
        rw [h1, h1]
      | obj fs =>
        have h1 : updateAttachment idx dir (.obj fields) = .obj fields := by
          rw [updateAttachment, hsrc]
        rw [h1, h1]

/-- The document as stored on disk after one repair pass over it: the
rewritten document when it had an `attachments` array, the untouched
document otherwise. -/
def repairDoc (idx : List (String × Path)) (dir : Path)
    (doc : List (String × JVal)) : List (String × JVal) :=
  (updateDoc idx dir doc).getD doc

/-- C8: Reference Repair is idempotent on documents: repairing an
already-repaired document (against the unchanged filename index, which
the second pass rebuilds identically since repair never moves files)
changes nothing — every already-rewritten reference resolves to the same
indexed file and is rewritten to the same relative path — so any
re-serialization reproduces the same bytes. -/
theorem updateDoc_c8 (idx : List (String × Path)) (dir : Path)
    (doc : List (String × JVal)) (hwf : idxWellFormed dir idx = true) :
    repairDoc idx dir (repairDoc idx dir doc) = repairDoc idx dir doc ∧
    ∀ serialize : List (String × JVal) → String,
      serialize (repairDoc idx dir (repairDoc idx dir doc)) =
        serialize (repairDoc idx dir doc) := by
  have main : repairDoc idx dir (repairDoc idx dir doc) = repairDoc idx dir doc := by
    rcases hatt : List.lookup "attachments" doc with _ | v
    · have h1 : repairDoc idx dir doc = doc := by
        rw [repairDoc, updateDoc, hatt]
        rfl
      rw [h1, h1]
    · cases v with
      | arr xs =>
        have h1 : repairDoc idx dir doc =
            setField doc "attachments" (.arr (xs.map (updateAttachment idx dir))) := by
          rw [repairDoc, updateDoc, hatt]
          rfl
        have h2 : List.lookup "attachments"
            (setField doc "attachments" (.arr (xs.map (updateAttachment idx dir)))) =
            some (.arr (xs.map (updateAttachment idx dir))) :=
          lookup_setField_self doc "attachments" _
        have h3 : ∀ l : List JVal,
            (l.map (updateAttachment idx dir)).map (updateAttachment idx dir) =
              l.map (updateAttachment idx dir) := by
          intro l
          induction l with
          | nil => rfl
          | cons a as iha => simp [updateAttachment_idem idx dir hwf a, iha]
        rw [h1, repairDoc, updateDoc, h2]
        dsimp only
        rw [h3, setField_idem]
        rfl
      | null =>
        have h1 : repairDoc idx dir doc = doc := by
          rw [repairDoc, updateDoc, hatt]
          rfl
        rw [h1, h1]
      | bool b =>
        have h1 : repairDoc idx dir doc = doc := by
          rw [repairDoc, updateDoc, hatt]
          rfl
        rw [h1, h1]
      | num n =>
        have h1 : repairDoc idx dir doc = doc := by
          rw [repairDoc, updateDoc, hatt]
          rfl
        rw [h1, h1]
      | str s =>
        have h1 : repairDoc idx dir doc = doc := by
          rw [repairDoc, updateDoc, hatt]
          rfl
        rw [h1, h1]
      | obj fs =>
        have h1 : repairDoc idx dir doc = doc := by
          rw [repairDoc, updateDoc, hatt]
          rfl
        rw [h1, h1]
  exact ⟨main, fun serialize => by rw [main]⟩

/-- C8 witness: repairing a concrete already-repaired document a second
time reproduces it exactly. -/
theorem updateDoc_c8_witness :
    repairDoc [("x.png", ["R", "logs", "x.png"])] ["R", "report", "allure-results"]
      (repairDoc [("x.png", ["R", "logs", "x.png"])] ["R", "report", "allure-results"]
        [("attachments", .arr [.obj [("source", .str "a/b/x.png")]]),
          ("name", .str "t")]) =
    repairDoc [("x.png", ["R", "logs", "x.png"])] ["R", "report", "allure-results"]
      [("attachments", .arr [.obj [("source", .str "a/b/x.png")]]),
        ("name", .str "t")] :=
  (updateDoc_c8 [("x.png", ["R", "logs", "x.png"])] ["R", "report", "allure-results"]
    [("attachments", .arr [.obj [("source", .str "a/b/x.png")]]), ("name", .str "t")]
    (by decide)).1

/-! ## Bounded Download Pool and pipeline ordering
(`GetArtifacts`, rawAllure.go lines 26-62 and 136-151) -/

/-- `maxConcurrentDownloads` (rawAllure.go line 24). -/
def maxConcurrentDownloads : Nat := 5

/-- Phase of one download task's goroutine (lines 139-147): `idle` before
`sem <- struct{}{}`, `downloading` while holding a semaphore slot inside
`downloadFile`, `done` after `<-sem` released the slot. -/
inductive TPhase where
  | idle : TPhase
  | downloading : TPhase
  | done : TPhase
deriving DecidableEq, Repr

/-- Phase of the orchestrating `GetArtifacts` call (lines 50-61):
walking/submitting until `wg.Wait()` passes, then `relocateContents`,
then `updateJsonPaths`, then finished. -/
inductive OPhase where
  | walking : OPhase
  | relocating : OPhase
  | repairing : OPhase
  | finished : OPhase
deriving DecidableEq, Repr

/-- Global state of the concurrency model: one phase per submitted
download task, the orchestrator phase, and a history flag recording that
`relocateContents` ran to completion. -/
structure SysState where
  tasks : List TPhase
  orch : OPhase
  relocated : Bool
deriving DecidableEq, Repr

/-- Number of tasks currently holding a semaphore slot (performing
download I/O). -/
def downloadingCount (s : SysState) : Nat :=
  s.tasks.countP (fun t => t == TPhase.downloading)

/-- `wg.Wait()` can pass: every submitted task has called `wg.Done()`. -/
def allDone (s : SysState) : Bool :=
  s.tasks.all (fun t => t == TPhase.done)

/-- Interleaving semantics of lines 136-151 and 50-61.  `acquire` is
`sem <- struct{}{}` (line 141), enabled only while one of the
`maxConcurrentDownloads` buffered-channel slots is free; `release` is the
unconditional `<-sem` after `downloadFile` returns (line 143), taken with
`ok = true` on success and `ok = false` when the error is then reported
to the sink — both release the slot; `barrier` is `wg.Wait()` (line 55),
enabled only once every task is done; `relocateDone` and `repairDone`
are the sequential `relocateContents` and `updateJsonPaths` calls
finishing (lines 59-61). -/
inductive SysStep : SysState → SysState → Prop where
  | acquire (s : SysState) (i : Nat)
      (hi : s.tasks[i]? = some TPhase.idle)
      (hcap : downloadingCount s < maxConcurrentDownloads) :
      SysStep s { s with tasks := s.tasks.set i TPhase.downloading }
  | release (s : SysState) (i : Nat) (ok : Bool)
      (hi : s.tasks[i]? = some TPhase.downloading) :
      SysStep s { s with tasks := s.tasks.set i TPhase.done }
  | barrier (s : SysState)
      (hall : allDone s = true) (ho : s.orch = OPhase.walking) :
      SysStep s { s with orch := OPhase.relocating }
  | relocateDone (s : SysState) (ho : s.orch = OPhase.relocating) :
      SysStep s { s with orch := OPhase.repairing, relocated := true }
  | repairDone (s : SysState) (ho : s.orch = OPhase.repairing) :
      SysStep s { s with orch := OPhase.finished }

/-- Initial state: `n` submitted tasks, none started, orchestrator
walking. -/
def initState (n : Nat) : SysState :=
  { tasks := List.replicate n TPhase.idle, orch := OPhase.walking, relocated := false }

/-- States the pipeline can reach. -/
def Reachable (n : Nat) (s : SysState) : Prop :=
  Relation.ReflTransGen SysStep (initState n) s

/-- The inductive invariant: the gate bound, the barrier property, and
repair-after-relocation. -/
def SysInv (s : SysState) : Prop :=
  downloadingCount s ≤ maxConcurrentDownloads ∧
  (s.orch ≠ OPhase.walking → allDone s = true) ∧
  ((s.orch = OPhase.repairing ∨ s.orch = OPhase.finished) → s.relocated = true)

theorem countP_set_succ (p : TPhase → Bool) :
    ∀ (l : List TPhase) (i : Nat) (a b : TPhase),
    l[i]? = some a → p a = false → p b = true →
    (l.set i b).countP p = l.countP p + 1
  | [], i, _, _, h, _, _ => by simp at h
  | x :: xs, 0, a, b, h, hpa, hpb => by
    have hx : x = a := by simpa using h
    subst hx
    simp [List.set, List.countP_cons, hpa, hpb]
  | x :: xs, i + 1, a, b, h, hpa, hpb => by
    have h2 : xs[i]? = some a := by simpa using h
    simp only [List.set, List.countP_cons]
    rw [countP_set_succ p xs i a b h2 hpa hpb]
    omega

theorem countP_set_not (p : TPhase → Bool) :
    ∀ (l : List TPhase) (i : Nat) (b : TPhase),
    p b = false → (l.set i b).countP p ≤ l.countP p
  | [], _, _, _ => Nat.le_refl _
  | x :: xs, 0, b, hpb => by
    simp only [List.set, List.countP_cons, hpb]
    by_cases hx : p x = true <;> simp [hx]
  | x :: xs, i + 1, b, hpb => by
    simp only [List.set, List.countP_cons]
    have := countP_set_not p xs i b hpb
    omega

theorem allDone_get {s : SysState} (h : allDone s = true) {i : Nat} {t : TPhase}
    (hi : s.tasks[i]? = some t) : t = TPhase.done := by
  have hmem : t ∈ s.tasks := List.getElem?_mem hi
  have := List.all_eq_true.mp h t hmem
  simpa using this

theorem sysStep_inv {s s2 : SysState} (hst : SysStep s s2) (hinv : SysInv s) :
    SysInv s2 := by
  obtain ⟨h1, h2, h3⟩ := hinv
  cases hst with
  | acquire i hi hcap =>
    refine ⟨?_, ?_, ?_⟩
    · have hcnt := countP_set_succ (fun t => t == TPhase.downloading)
        s.tasks i TPhase.idle TPhase.downloading hi (by rfl) (by rfl)
      show (s.tasks.set i TPhase.downloading).countP _ ≤ maxConcurrentDownloads
      rw [hcnt]
      have : downloadingCount s < maxConcurrentDownloads := hcap
      rw [downloadingCount] at this
      omega
    · intro ho
      have hall := h2 ho
      exact absurd (allDone_get hall hi) (by simp)
    · intro ho
      exact h3 ho
  | release i ok hi =>
    refine ⟨?_, ?_, ?_⟩
    · have hcnt := countP_set_not (fun t => t == TPhase.downloading)
        s.tasks i TPhase.done (by rfl)
      show (s.tasks.set i TPhase.done).countP _ ≤ maxConcurrentDownloads
      have hle : downloadingCount s ≤ maxConcurrentDownloads := h1
      rw [downloadingCount] at hle
      omega
    · intro ho
      have hall := h2 ho
      exact absurd (allDone_get hall hi) (by simp)
    · intro ho
      exact h3 ho
  | barrier hall ho =>
    exact ⟨h1, fun _ => hall, fun hc => by
      rcases hc with hc | hc <;> exact absurd hc (by simp)⟩
  | relocateDone ho =>
    exact ⟨h1, fun _ => h2 (by rw [ho]; simp), fun _ => rfl⟩
  | repairDone ho =>
    exact ⟨h1, fun _ => h2 (by rw [ho]; simp), fun _ => h3 (Or.inl ho)⟩

theorem reachable_inv (n : Nat) (s : SysState) (h : Reachable n s) : SysInv s := by
  induction h with
  | refl =>
    refine ⟨?_, fun ho => absurd rfl ho, fun hc => ?_⟩
    · show (List.replicate n TPhase.idle).countP _ ≤ maxConcurrentDownloads
      have : (List.replicate n TPhase.idle).countP (fun t => t == TPhase.downloading) = 0 := by
        rw [List.countP_eq_zero]
        intro t hmem
        have := List.eq_of_mem_replicate hmem
        subst this
        simp
      omega
    · rcases hc with hc | hc <;> exact absurd hc (by simp [initState])
  | tail _ hstep ih => exact sysStep_inv hstep ih

theorem downloadingCount_zero_of_allDone (s : SysState) (h : allDone s = true) :
    downloadingCount s = 0 := by
  rw [downloadingCount, List.countP_eq_zero]
  intro t hmem
  have := List.all_eq_true.mp h t hmem
  have ht : t = TPhase.done := by simpa using this
  subst ht
  simp

/-- C4: in every reachable state of the pool, at most
`maxConcurrentDownloads = 5` download tasks hold the admission gate
concurrently — each task acquires one slot before its download and the
`release` transition is enabled for success and failure alike — and the
gate never leaks capacity: once every task is done, the held count is
back to zero. -/
theorem pool_c4 (n : Nat) (s : SysState) (h : Reachable n s) :
    downloadingCount s ≤ maxConcurrentDownloads ∧
    (allDone s = true → downloadingCount s = 0) := by
  exact ⟨(reachable_inv n s h).1, downloadingCount_zero_of_allDone s⟩

/-- A 7-task pool state with one download in flight. -/
def poolStateOne : SysState :=
  { tasks := List.replicate 7 TPhase.idle |>.set 0 TPhase.downloading
    orch := OPhase.walking
    relocated := false }

/-- A 7-task pool state with two downloads in flight. -/
def poolStateTwo : SysState :=
  { tasks := (List.replicate 7 TPhase.idle).set 0 TPhase.downloading |>.set 1 TPhase.downloading
    orch := OPhase.walking
    relocated := false }

/-- C4 witness: a reachable state of a 7-task pool with two downloads in
flight respects the bound. -/
theorem pool_c4_witness :
    downloadingCount poolStateTwo ≤ maxConcurrentDownloads ∧
    (allDone poolStateTwo = true → downloadingCount poolStateTwo = 0) := by
  apply pool_c4 7
  have h1 : SysStep (initState 7) poolStateOne :=
    SysStep.acquire (initState 7) 0 (by rfl) (by decide)
  have h2 : SysStep poolStateOne poolStateTwo :=
    SysStep.acquire poolStateOne 1 (by rfl) (by decide)
  exact Relation.ReflTransGen.tail (Relation.ReflTransGen.tail Relation.ReflTransGen.refl h1) h2

/-- C9: in every reachable state, once the orchestrator has moved past
the walking phase — i.e. from the moment Layout Reconciliation begins —
every submitted download task has finished, and Reference Repair can only
be underway or finished once Layout Reconciliation has completed. -/
theorem ordering_c9 (n : Nat) (s : SysState) (h : Reachable n s) :
    (s.orch ≠ OPhase.walking → allDone s = true) ∧
    ((s.orch = OPhase.repairing ∨ s.orch = OPhase.finished) → s.relocated = true) :=
  ⟨(reachable_inv n s h).2.1, (reachable_inv n s h).2.2⟩

/-- The empty-pool state while `relocateContents` runs. -/
def relocatingState : SysState :=
  { tasks := [], orch := OPhase.relocating, relocated := false }

/-- The empty-pool state while `updateJsonPaths` runs. -/
def repairingState : SysState :=
  { tasks := [], orch := OPhase.repairing, relocated := true }

/-- C9 witness: in the reachable state where repair is underway (an empty
pool, barrier passed, relocation completed), the ordering facts hold. -/
theorem ordering_c9_witness :
    (repairingState.orch ≠ OPhase.walking → allDone repairingState = true) ∧
    ((repairingState.orch = OPhase.repairing ∨ repairingState.orch = OPhase.finished) →
      repairingState.relocated = true) := by
  apply ordering_c9 0
  have h1 : SysStep (initState 0) relocatingState :=
    SysStep.barrier (initState 0) (by rfl) rfl
  have h2 : SysStep relocatingState repairingState :=
    SysStep.relocateDone relocatingState rfl
  exact Relation.ReflTransGen.tail (Relation.ReflTransGen.tail Relation.ReflTransGen.refl h1) h2

/-! ## The full pipeline (`GetArtifacts`, rawAllure.go lines 26-62) -/

/-- Outcome of one `GetArtifacts` call: the final file system with the
event trace, or a process crash from an unhandled panic. -/
inductive POutcome where
  | ok (fs : Fs) (events : List PEvent) : POutcome
  | crashed : POutcome
deriving Repr

/-- Forest length, `len(*rootFolders)` (line 28). -/
def flen : RTree → Nat
  | .fcons _ rest => flen rest + 1
  | _ => 0

/-- Walking one root entry: `GetArtifacts` calls `getFoldersRecursively`
on every root node's id (lines 50-52), file entries included; listing a
file identifier yields a body that does not unmarshal into a node list,
so such a root is abandoned like any malformed listing. -/
def walkRoot : RTree → WalkResult
  | .file _ => .ok []
  | t => walkF t

/-- Walking the root forest left to right (lines 50-52); a panic in any
root's walk kills the process before the remaining roots are walked. -/
def walkRoots : RTree → WalkResult
  | .fcons c rest =>
    match walkRoot c with
    | .panicked => .panicked
    | .ok ts =>
      match walkRoots rest with
      | .panicked => .panicked
      | .ok ts2 => .ok (ts ++ ts2)
  | .fnil => .ok []
  | t => walkRoot t

/-- The filename index built by walking the destination tree
(lines 215-227): later files overwrite earlier entries on base-name
collision (the fold prepends, and lookups take the first hit). -/
def buildFileMap (fs : Fs) : List (String × Path) :=
  fs.foldl (fun m e => (pathBase e.1, e.1) :: m) []

/-- `filepath.Ext(name) == ".json"` (line 243). -/
def isJsonName (name : String) : Bool :=
  (".json".data).isSuffixOf name.data

/-- The `.json` entries directly inside `dir` (`ioutil.ReadDir` +
`filepath.Ext`, lines 236-243), each name once. -/
def jsonFilesIn (fs : Fs) (dir : Path) : List String :=
  ((fs.map (fun e => e.1)).filterMap (fun p =>
    if p.length = dir.length + 1 && dir.isPrefixOf p then some (pathBase p)
    else none)).dedup

/-- `updateJsonPaths` (lines 213-290) over the file-system model, the
`encoding/json` codec abstracted as the `parse`/`serialize`
collaborators: build the filename index over the whole destination tree,
then rewrite each `.json` file directly inside
`<root>/report/allure-results` through `updateDoc`; unreadable or
unparsable files and documents without an `attachments` array are left
untouched. -/
def updateJsonPathsFs (parse : String → Option (List (String × JVal)))
    (serialize : List (String × JVal) → String) (whereToSave : Path) (fs : Fs) : Fs :=
  let fileMap := buildFileMap fs
  let dir := whereToSave ++ ["report", "allure-results"]
  (jsonFilesIn fs dir).foldl
    (fun acc name =>
      match lookupFs acc (dir ++ [name]) with
      | none => acc
      | some data =>
        match parse data with
        | none => acc
        | some doc =>
          match updateDoc fileMap dir doc with
          | none => acc
          | some doc2 => writeFile acc (dir ++ [name]) (serialize doc2)) fs

/-- `GetArtifacts` (lines 26-62) over abstract collaborators: `roots` is
the Root Discovery result (`none` for a nil pointer), `content` the
content-request oracle (`none` = nil response, which panics inside
`downloadFile`), `parse`/`serialize` the JSON codec.  An empty or nil
root collection is logged and the call returns at once; otherwise every
root is walked, the submitted downloads run, and only then do
`relocateContents` and `updateJsonPaths` follow. -/
def GetArtifactsModel (roots : Option RTree) (runId : String) (whereToSave : Path)
    (content : String → Option String)
    (parse : String → Option (List (String × JVal)))
    (serialize : List (String × JVal) → String)
    (fs : Fs) : POutcome :=
  match roots with
  | none => .ok fs [.logRootFail]
  | some rs =>
    if flen rs = 0 then .ok fs [.logRootFail]
    else
      match walkRoots rs with
      | .panicked => .crashed
      | .ok tasks =>
        match runDownloads whereToSave content tasks fs with
        | none => .crashed
        | some (fs2, evs) =>
          let fs3 := relocateContents fs2 whereToSave runId
          let fs4 := updateJsonPathsFs parse serialize whereToSave fs3
          .ok fs4 (evs ++ [.relocate, .repairJson])

/-- C10: whenever Root Discovery yields a nil or empty collection of root
nodes, `GetArtifacts` logs the failure message and returns immediately:
the trace holds only that log entry — no download, relocation or repair
event — and the returned file system is the untouched input, so the
destination directory is neither created, read, nor modified. -/
theorem getArtifacts_c10 (roots : Option RTree) (runId : String) (whereToSave : Path)
    (content : String → Option String)
    (parse : String → Option (List (String × JVal)))
    (serialize : List (String × JVal) → String) (fs : Fs)
    (hroots : roots = none ∨ ∃ rs, roots = some rs ∧ flen rs = 0) :
    GetArtifactsModel roots runId whereToSave content parse serialize fs =
      .ok fs [.logRootFail] := by
  rcases hroots with h | ⟨rs, h, h0⟩
  · rw [h]
    rfl
  · rw [h]
    show (if flen rs = 0 then POutcome.ok fs [.logRootFail] else _) = _
    rw [if_pos h0]

/-- C10 witness: an empty root forest short-circuits the pipeline. -/
theorem getArtifacts_c10_witness :
    GetArtifactsModel (some .fnil) "run1" ["R"] (fun _ => some "data")
      (fun _ => none) (fun _ => "") [(["R", "keep.txt"], "K")] =
      .ok [(["R", "keep.txt"], "K")] [.logRootFail] :=
  getArtifacts_c10 (some .fnil) "run1" ["R"] (fun _ => some "data")
    (fun _ => none) (fun _ => "") [(["R", "keep.txt"], "K")]
    (Or.inr ⟨.fnil, rfl, rfl⟩)

/-- C1: the code violates the claim at transport level.  A nil response
while listing a subtree dereferences `resp.Body` (line 121) and panics,
and a nil response during a download does the same (line 177), crashing
the hosting process instead of abandoning only the affected unit of work;
a malformed listing body, in contrast, is handled exactly as the claim
states — the subtree is abandoned and sibling downloads proceed. -/
theorem getArtifacts_c1_nil_crash :
    GetArtifactsModel (some (.fcons (.dirNil "r1") .fnil)) "run1" ["R"]
      (fun _ => some "data") (fun _ => none) (fun _ => "") [] = .crashed ∧
    GetArtifactsModel (some (.fcons (.dir "r1" (.fcons (.file "a.txt") .fnil)) .fnil))
      "run1" ["R"] (fun _ => none) (fun _ => none) (fun _ => "") [] = .crashed ∧
    walkF (.fcons (.dirBad "bad") (.fcons (.file "ok.txt") .fnil)) = .ok ["ok.txt"] :=
  ⟨rfl, rfl, rfl⟩

end RawAllure
